import Mathlib

/-!
Shallow embedding of the study-pook import pipeline core:
text normalization utilities, the curriculum text parser, the theme
resolver and the DOCX note-block walk, together with theorems settling
the specification claims about them.

Strings are modelled as Lean `String`s; most transformations work on the
underlying `List Char`.  JavaScript `number` values produced by the score
function are modelled as exact rationals (`ℚ`); the only numeric
operations the code performs on them (division of small naturals,
comparison with the literal 0.55) round identically in binary doubles
for every token count that can occur, so the rational model is faithful.
-/

namespace StudyPook

/-! ### Character classes

`isJsWs` models the JavaScript regular-expression class `\s`
(whitespace); `isCombiningMark` models the property class
`\p{Diacritic}` restricted to the combining-mark blocks, which is the
part relevant to NFD-decomposed letters. -/

def isJsWs (c : Char) : Bool :=
  c.toNat = 32 || c.toNat = 9 || c.toNat = 10 || c.toNat = 0xB || c.toNat = 0xC ||
  c.toNat = 13 || c.toNat = 0xA0 || c.toNat = 0x1680 ||
  (0x2000 <= c.toNat && c.toNat <= 0x200A) ||
  c.toNat = 0x2028 || c.toNat = 0x2029 || c.toNat = 0x202F || c.toNat = 0x205F ||
  c.toNat = 0x3000 || c.toNat = 0xFEFF

def isCombiningMark (c : Char) : Bool :=
  (0x300 ≤ c.toNat && c.toNat ≤ 0x36F) ||
  (0x1AB0 ≤ c.toNat && c.toNat ≤ 0x1AFF) ||
  (0x1DC0 ≤ c.toNat && c.toNat ≤ 0x1DFF) ||
  (0x20D0 ≤ c.toNat && c.toNat ≤ 0x20FF) ||
  (0xFE20 ≤ c.toNat && c.toNat ≤ 0xFE2F)

def isLowerAlnum (c : Char) : Bool :=
  (97 <= c.toNat && c.toNat <= 122) || (48 <= c.toNat && c.toNat <= 57)

def isAsciiDigit (c : Char) : Bool := 48 <= c.toNat && c.toNat <= 57

/-- Model of `String.prototype.normalize('NFD')`, per character.
Unicode canonical decomposition is the identity on ASCII; the table
covers the precomposed Latin letters of the Slovak alphabet appearing in
the repository's data (base letter followed by the combining mark).
Characters outside the table are left undecomposed, which is harmless
because every non-ASCII character is later replaced by a space. -/
def nfdChar (c : Char) : List Char :=
  if c.toNat < 128 then [c] else
  match c with
  | 'á' => ['a', '́'] | 'Á' => ['A', '́']
  | 'ä' => ['a', '̈'] | 'Ä' => ['A', '̈']
  | 'č' => ['c', '̌'] | 'Č' => ['C', '̌']
  | 'ď' => ['d', '̌'] | 'Ď' => ['D', '̌']
  | 'é' => ['e', '́'] | 'É' => ['E', '́']
  | 'í' => ['i', '́'] | 'Í' => ['I', '́']
  | 'ĺ' => ['l', '́'] | 'Ĺ' => ['L', '́']
  | 'ľ' => ['l', '̌'] | 'Ľ' => ['L', '̌']
  | 'ň' => ['n', '̌'] | 'Ň' => ['N', '̌']
  | 'ó' => ['o', '́'] | 'Ó' => ['O', '́']
  | 'ô' => ['o', '̂'] | 'Ô' => ['O', '̂']
  | 'ŕ' => ['r', '́'] | 'Ŕ' => ['R', '́']
  | 'š' => ['s', '̌'] | 'Š' => ['S', '̌']
  | 'ť' => ['t', '̌'] | 'Ť' => ['T', '̌']
  | 'ú' => ['u', '́'] | 'Ú' => ['U', '́']
  | 'ý' => ['y', '́'] | 'Ý' => ['Y', '́']
  | 'ž' => ['z', '̌'] | 'Ž' => ['Z', '̌']
  | _ => [c]

/-- Model of `String.prototype.toLowerCase` per character (ASCII case
map; non-ASCII letters are later replaced by a space either way). -/
def toLowerChar (c : Char) : Char :=
  if 65 <= c.toNat && c.toNat <= 90 then Char.ofNat (c.toNat + 32) else c

/-- One character of `.replace(/[^a-z0-9\s]/g, ' ')`. -/
def keepChar (c : Char) : Char :=
  if isLowerAlnum c || isJsWs c then c else ' '

/-! ### Whitespace collapsing and trimming

`collapseWsAux l seenWs` models `.replace(/\s+/g, ' ')`: every maximal
run of `\s` characters becomes a single space.  The flag records whether
the previous character was part of a whitespace run. -/

def collapseWsAux : List Char → Bool → List Char
  | [], _ => []
  | c :: rest, seenWs =>
    if isJsWs c then
      if seenWs then collapseWsAux rest true
      else ' ' :: collapseWsAux rest true
    else c :: collapseWsAux rest false

def collapseWs (l : List Char) : List Char := collapseWsAux l false

def trimEndL (l : List Char) : List Char :=
  (l.reverse.dropWhile (fun c => isJsWs c)).reverse

def trimL (l : List Char) : List Char :=
  trimEndL (l.dropWhile (fun c => isJsWs c))

/-- `cleanLine(value)` from `utils.ts`:
`value.replace(/\s+/g, ' ').trim()`. -/
def cleanLineL (l : List Char) : List Char := trimL (collapseWs l)

def cleanLine (s : String) : String := ⟨cleanLineL s.data⟩

/-- The decompose / strip-diacritics / lowercase / keep-alphanumeric
stages of `normalizeText`, before whitespace collapsing. -/
def preNormalizeL (l : List Char) : List Char :=
  (((l.flatMap nfdChar).filter (fun c => !isCombiningMark c)).map toLowerChar).map keepChar

/-- `normalizeText(value)` from `utils.ts`: NFD-decompose, strip
combining diacritic marks, lowercase, replace every character outside
`[a-z0-9\s]` by a space, collapse whitespace runs, trim. -/
def normalizeTextL (l : List Char) : List Char := cleanLineL (preNormalizeL l)

def normalizeText (s : String) : String := ⟨normalizeTextL s.data⟩

/-! ### slugify -/

/-- Model of `.replace(/\s+/g, '-')`. -/
def wsToDashAux : List Char → Bool → List Char
  | [], _ => []
  | c :: rest, seenWs =>
    if isJsWs c then
      if seenWs then wsToDashAux rest true
      else '-' :: wsToDashAux rest true
    else c :: wsToDashAux rest false

/-- Model of the dash-run collapse `.replace(..., '-')` whose pattern is
one-or-more dashes: every maximal run of dashes becomes a single dash. -/
def dashRunsAux : List Char → Bool → List Char
  | [], _ => []
  | c :: rest, seenDash =>
    if c = '-' then
      if seenDash then dashRunsAux rest true
      else '-' :: dashRunsAux rest true
    else c :: dashRunsAux rest false

/-- Model of `.replace(/^-|-$/g, '')`: strip one leading and one
trailing dash. -/
def stripEdgeDashes (l : List Char) : List Char :=
  let l1 := match l with
    | '-' :: rest => rest
    | other => other
  match l1.reverse with
  | '-' :: rest => rest.reverse
  | _ => l1

/-- `slugify(value)` from `utils.ts`: `normalizeText(value)` then turn
whitespace runs into `-`, collapse dash runs, strip edge dashes. -/
def slugify (s : String) : String :=
  ⟨stripEdgeDashes (dashRunsAux (wsToDashAux (normalizeTextL s.data) false) false)⟩

/-! ### scoreNameMatch -/

/-- Split on the single character `sep` (JavaScript
`String.prototype.split(sep)` with a one-character separator). -/
def splitAtChar (sep : Char) : List Char → List (List Char)
  | [] => [[]]
  | c :: rest =>
    match splitAtChar sep rest with
    | [] => [[]]
    | g :: gs => if c = sep then [] :: g :: gs else (c :: g) :: gs

/-- First-occurrence deduplication, modelling iteration over a JS `Set`
built from a list. -/
def uniqueFirstAux : List String → List String → List String
  | _, [] => []
  | seen, x :: rest =>
    if x ∈ seen then uniqueFirstAux seen rest
    else x :: uniqueFirstAux (x :: seen) rest

/-- The token set of `scoreNameMatch`:
`new Set(s.split(' ').filter(Boolean))`, as an ordered duplicate-free
list. -/
def tokensOf (s : String) : List String :=
  uniqueFirstAux [] (((splitAtChar ' ' s.data).map fun l => (⟨l⟩ : String)).filter (fun t => t ≠ ""))

/-- `scoreNameMatch(a, b)` from `utils.ts`. -/
def scoreNameMatch (a b : String) : ℚ :=
  if a = b then 1
  else
    let aTokens := tokensOf a
    let bTokens := tokensOf b
    if aTokens = [] ∨ bTokens = [] then 0
    else ((aTokens.filter (fun t => t ∈ bTokens)).length : ℚ) /
      ((max aTokens.length bTokens.length : ℕ) : ℚ)

/-! ### Decimal rendering of naturals (JS template literals) -/

def natDigitsAux : Nat → Nat → List Nat
  | 0, _ => []
  | _ + 1, 0 => []
  | fuel + 1, n + 1 => ((n + 1) % 10) :: natDigitsAux fuel ((n + 1) / 10)

/-- Little-endian base-10 digits of a natural number. -/
def natDigits (n : Nat) : List Nat := natDigitsAux n n

def digitToChar (d : Nat) : Char :=
  match d with
  | 0 => '0' | 1 => '1' | 2 => '2' | 3 => '3' | 4 => '4'
  | 5 => '5' | 6 => '6' | 7 => '7' | 8 => '8' | _ => '9'

/-- Big-endian decimal rendering of a natural number, modelling the JS
string conversion `String(n)` for the nonnegative integers produced by
the code. -/
def decimalDigitsBE (n : Nat) : List Char :=
  if n = 0 then ['0'] else (natDigits n).reverse.map digitToChar

def jsNatToStr (n : Nat) : String := ⟨decimalDigitsBE n⟩

/-- Decimal digit value of a digit character (inverse of `digitToChar`
on digits; 0 elsewhere). -/
def chToDigit (c : Char) : Nat :=
  match c with
  | '0' => 0 | '1' => 1 | '2' => 2 | '3' => 3 | '4' => 4
  | '5' => 5 | '6' => 6 | '7' => 7 | '8' => 8 | '9' => 9
  | _ => 0

/-- Value of a little-endian digit list. -/
def unDigits : List Nat → Nat
  | [] => 0
  | d :: ds => d + 10 * unDigits ds

/-- The numeric order encoded in an external key: the value of the
key's leading run of digit characters. -/
def keyOrderOf (key : String) : Nat :=
  unDigits (((key.data.takeWhile isAsciiDigit).map chToDigit).reverse)

/-! ### Curriculum text parser (scripts/import/parsePdf.ts) -/

structure ParsedTheme where
  slug : String
  normalizedTitle : String
  number : Nat
  title : String
  subthemes : List String
  sourceText : String
  order : Nat
  deriving DecidableEq

structure ParsedCourse where
  slug : String
  title : String
  order : Nat
  themes : List ParsedTheme
  deriving DecidableEq

structure ParsedCurriculum where
  courses : List ParsedCourse
  deriving DecidableEq

def knownCourseTitles : List String :=
  ["Diskrétna matematika", "Matematická analýza", "Algebra",
   "Pravdepodobnosť a štatistika", "Tvorba a analýza algoritmov a dátových štruktúr",
   "Lineárne programovanie a metódy voľnej optimalizácie", "Databázy",
   "Princípy dátovej vedy"]

/-- JS `line.startsWith(p)`. -/
def strStarts (p s : String) : Bool := p.data.isPrefixOf s.data

def shouldSkipLine (line : String) : Bool :=
  line = "" ||
  strStarts "Štátne skúšky" line || strStarts "Obsahová náplň" line ||
  strStarts "Podrobný sylabus" line || strStarts "Programovanie." line ||
  strStarts "Základy diskrétnej" line || strStarts "(predmety" line

/-- The number denoted by a nonempty ASCII digit string (JS
`Number(...)` applied to the digits captured by the theme-start
pattern). -/
def digitsToNat (l : List Char) : Nat :=
  l.foldl (fun acc c => acc * 10 + (c.toNat - 48)) 0

/-- Model of matching a clean line against `^(\d+)\.\s*(.+)$`:
one-or-more digits, a dot, then greedy whitespace that backtracks just
enough to leave at least one character for the final group.  (Input
lines contain no newline, so the dot-matches-anything group is exact.) -/
def matchThemeStart (l : List Char) : Option (Nat × List Char) :=
  let ds := l.takeWhile isAsciiDigit
  if ds = [] then none
  else
    match l.drop ds.length with
    | '.' :: rest =>
      if rest = [] then none
      else
        let wsLen := min (rest.takeWhile (fun c => isJsWs c)).length (rest.length - 1)
        some (digitsToNat ds, rest.drop wsLen)
    | _ => none

/-- Strip the trailing-dash pattern of `parseTheme`: one dash or en-dash
followed only by whitespace at the end of the string; no change when the
pattern does not match. -/
def stripTrailingDash (l : List Char) : List Char :=
  let rev := l.reverse
  let rev2 := rev.dropWhile (fun c => isJsWs c)
  match rev2 with
  | c :: rest => if c = '-' || c.toNat = 0x2013 then rest.reverse else l
  | [] => l

/-- Try one alternative of the annotation group at a split position: the
remainder must start with the open delimiter and, after dropping
trailing whitespace, end with the close delimiter; the greedy inner
group is everything in between. -/
def annotAt (openC closeC : Char) (rest : List Char) : Option (List Char) :=
  match rest with
  | c :: after =>
    if c = openC then
      match after.reverse.dropWhile (fun x => isJsWs x) with
      | d :: mid => if d = closeC then some mid.reverse else none
      | [] => none
    else none
  | [] => none

/-- Model of matching `^(.*?)(?:\[(.*)\]|\((.*)\))\s*$`: scan split
positions left to right (lazy prefix `.*?`); at each position try the
square-bracket alternative, then the parenthesis alternative, each with
a greedy inner group followed by trailing whitespace.  Returns group 1
(the accumulated prefix) and the annotation body (group 2 or 3). -/
def annotSplit : List Char → List Char → Option (List Char × List Char)
  | _, [] => none
  | acc, c :: rest =>
    match annotAt '[' ']' (c :: rest) with
    | some mid => some (acc.reverse, mid)
    | none =>
      match annotAt '(' ')' (c :: rest) with
      | some mid => some (acc.reverse, mid)
      | none => annotSplit (c :: acc) rest

/-- `parseTheme(raw, number, courseSlug, order)` from `parsePdf.ts`. -/
def parseTheme (raw : String) (number : Nat) (courseSlug : String) (order : Nat) :
    ParsedTheme :=
  let compactRaw := cleanLine raw
  let m := annotSplit [] compactRaw.data
  let titleChars := match m with
    | some (g1, _) => g1
    | none => compactRaw.data
  let title := cleanLine ⟨stripTrailingDash titleChars⟩
  let subthemeText : List Char := match m with
    | some (_, mid) => mid
    | none => []
  let subthemes :=
    ((splitAtChar ',' subthemeText).map (fun l => cleanLine ⟨l⟩)).filter (fun x => x ≠ "")
  let baseSlug := (slugify title).data.take 80
  { slug := ⟨courseSlug.data ++ '-' :: (jsNatToStr number).data ++ '-' :: baseSlug⟩
    normalizedTitle := normalizeText title
    number := number
    title := title
    subthemes := subthemes
    sourceText := compactRaw
    order := order }

/-- The mutable state of `parseCurriculumText`: the list of courses
pushed so far (the source keeps `currentCourse` as a reference to the
most recently pushed course and mutates its `themes` array in place, so
the current course is the last element, and it is absent exactly when no
course has started), the pending theme, and the global order counter. -/
structure PCState where
  courses : List ParsedCourse
  pendingTheme : Option (Nat × String)
  globalOrder : Nat

/-- `flushTheme` from `parseCurriculumText`: a no-op unless both a
current course and a pending theme exist (in particular a pending theme
is NOT cleared when no course has started yet); otherwise parse the
pending theme into the current course and advance the global order. -/
def flushTheme (s : PCState) : PCState :=
  match s.courses.getLast?, s.pendingTheme with
  | some c, some (num, txt) =>
    { courses := s.courses.dropLast ++
        [{ c with themes := c.themes ++ [parseTheme txt num c.slug s.globalOrder] }]
      pendingTheme := none
      globalOrder := s.globalOrder + 1 }
  | _, _ => s

/-- One iteration of the line loop of `parseCurriculumText`. -/
def processLine (s : PCState) (line : String) : PCState :=
  if line ∈ knownCourseTitles then
    { flushTheme s with courses := (flushTheme s).courses ++
        [{ slug := slugify line, title := line, order := (flushTheme s).courses.length + 1,
           themes := [] }] }
  else
    match matchThemeStart line.data with
    | some (n, txt) => { flushTheme s with pendingTheme := some (n, ⟨txt⟩) }
    | none =>
      match s.pendingTheme with
      | some (n, t) => { s with pendingTheme := some (n, ⟨t.data ++ ' ' :: line.data⟩) }
      | none => s

def stripCr (line : List Char) : List Char :=
  match line.reverse with
  | '\r' :: rest => rest.reverse
  | _ => line

/-- Split on line breaks, modelling `text.split(pattern)` where the
pattern is a newline optionally preceded by a carriage return. -/
def splitLines (l : List Char) : List (List Char) :=
  let segs := splitAtChar '\n' l
  segs.dropLast.map stripCr ++ [segs.getLastD []]

/-- The line preprocessing of `parseCurriculumText`: split into lines,
clean each, drop boilerplate. -/
def curriculumLines (text : String) : List String :=
  ((splitLines text.data).map (fun l => cleanLine ⟨l⟩)).filter (fun l => !shouldSkipLine l)

/-- `parseCurriculumText(text)` from `parsePdf.ts`. -/
def parseCurriculumText (text : String) : ParsedCurriculum :=
  { courses := (flushTheme ((curriculumLines text).foldl processLine
      { courses := [], pendingTheme := none, globalOrder := 1 })).courses }

/-- The per-document theme sequence in emission order: themes are
appended to the course that is last at flush time, and a finished course
never receives further themes, so concatenating per-course theme lists
gives emission order. -/
def allThemes (s : PCState) : List ParsedTheme := s.courses.flatMap (fun c => c.themes)

/-- Walk invariant behind claim C8: theme orders so far are strictly
increasing in emission order and all lie below the global counter. -/
def pcOrdersOK (s : PCState) : Prop :=
  ((allThemes s).map (fun t => t.order)).Pairwise (fun a b => a < b) ∧
  ∀ t ∈ allThemes s, t.order < s.globalOrder

/-- Claim C10 intermediate shape: exactly one course so far, still
without themes, with the pre-course pending theme intact and the global
counter untouched. -/
def c10Pending (n g : Nat) (s : PCState) : Prop :=
  ∃ c, s.courses = [c] ∧ c.themes = [] ∧ (∃ txt, s.pendingTheme = some (n, txt)) ∧
    s.globalOrder = g

/-- Claim C10 final shape: the first course's first theme carries the
pre-course pending theme's number and the order the counter had when the
first course line was seen. -/
def c10Placed (n g : Nat) (s : PCState) : Prop :=
  ∃ c cs, s.courses = c :: cs ∧ ∃ t ts, c.themes = t :: ts ∧ t.number = n ∧ t.order = g

def c10Inv (n g : Nat) (s : PCState) : Prop := c10Placed n g s ∨ c10Pending n g s

/-! ### DOCX note extraction (the unnamed parseDocx module)

The XML tree produced by the `preserveOrder` parser is modelled as a
tagged union: in that representation every node object carries exactly
one tag key mapping to its child array, plus an optional attribute bag,
and text leaves appear as text nodes. -/

inductive XmlNode where
  | text (s : String)
  | elem (tag : String) (attrs : List (String × String)) (children : List XmlNode)

def tagOf : XmlNode → Option String
  | .text _ => none
  | .elem t _ _ => some t

def childrenOf : XmlNode → List XmlNode
  | .text _ => []
  | .elem _ _ cs => cs

def attrsOf : XmlNode → List (String × String)
  | .text _ => []
  | .elem _ a _ => a

/-- JS `Map.get` over an insertion-ordered map with unique keys: the
value at the first (hence only) matching key. -/
def alGet {α : Type} : List (String × α) → String → Option α
  | [], _ => none
  | p :: rest, k => if p.1 = k then some p.2 else alGet rest k

/-- JS `Map.set`: overwrite the existing key in place, else append. -/
def alSet {α : Type} : List (String × α) → String → α → List (String × α)
  | [], k, v => [(k, v)]
  | p :: rest, k, v => if p.1 = k then (k, v) :: rest else p :: alSet rest k v

/-- JS `Set.add` on an insertion-ordered duplicate-free list. -/
def setAdd (l : List String) (x : String) : List String :=
  if x ∈ l then l else l ++ [x]

/-- `readAttribute(node, key)`: look the key up in the node's attribute
bag. -/
def nodeAttr (n : XmlNode) (key : String) : Option String := alGet (attrsOf n) key

mutual

/-- `readTextNode(node)`: concatenate every text leaf under the node. -/
def readTextNode : XmlNode → String
  | .text s => s
  | .elem _ _ cs => readTextNodeList cs

def readTextNodeList : List XmlNode → String
  | [] => ""
  | n :: rest => readTextNode n ++ readTextNodeList rest

end

mutual

/-- `collectTextFragments(node)`: the texts of all `w:t` elements in
document order (bare text leaves outside `w:t` contribute nothing). -/
def collectTextFragments : XmlNode → List String
  | .text _ => []
  | .elem tag _ cs =>
    if tag = "w:t" then
      let t := readTextNodeList cs
      if t = "" then [] else [t]
    else collectTextFragmentsList cs

def collectTextFragmentsList : List XmlNode → List String
  | [] => []
  | n :: rest => collectTextFragments n ++ collectTextFragmentsList rest

end

mutual

/-- `collectEmbedIds(node)`: the `r:embed` attribute of every `a:blip`
element, empty strings dropped. -/
def collectEmbedIds : XmlNode → List String
  | .text _ => []
  | .elem tag attrs cs =>
    ((if tag = "a:blip" then [((alGet attrs "r:embed").getD "")] else []) ++
      collectEmbedIdsList cs).filter (fun x => x ≠ "")

def collectEmbedIdsList : List XmlNode → List String
  | [] => []
  | n :: rest => collectEmbedIds n ++ collectEmbedIdsList rest

end

def findNodeByTag (l : List XmlNode) (tag : String) : Option XmlNode :=
  l.find? (fun n => tagOf n == some tag)

def lowerStr (s : String) : String := ⟨s.data.map toLowerChar⟩

/-- `isEnabledWordFlag(value)`: an absent value means enabled; the
strings "0", "false" and "off" (lowercased) disable. -/
def isEnabledWordFlag : Option String → Bool
  | none => true
  | some v =>
    let normalized := lowerStr v
    normalized != "0" && normalized != "false" && normalized != "off"

/-- `isRunBold(runNode)`: the run is bold when its `w:rPr` properties
carry an enabled `w:b` or `w:bCs` flag. -/
def isRunBold (runNode : List XmlNode) : Bool :=
  match findNodeByTag runNode "w:rPr" with
  | none => false
  | some rPr =>
    let boldEnabled : String → Bool := fun tag =>
      match findNodeByTag (childrenOf rPr) tag with
      | none => false
      | some node => isEnabledWordFlag (nodeAttr node "w:val")
    boldEnabled "w:b" || boldEnabled "w:bCs"

/-- Model of the JS `Number(raw)` coercion restricted to
optionally-signed integer strings (the shape of `w:ilvl` values);
anything else is NaN in JS, which the caller maps to 0, and the model
returns 0 for it directly. -/
def jsNumberLevel (raw : String) : Int :=
  match trimL raw.data with
  | '-' :: ds =>
    if ds ≠ [] ∧ ds.all isAsciiDigit then -(digitsToNat ds : Int) else 0
  | ds =>
    if ds ≠ [] ∧ ds.all isAsciiDigit then (digitsToNat ds : Int) else 0

/-- `getParagraphListLevel(paragraphProps)`: `none` when the paragraph
carries no numbering, otherwise the `w:ilvl` value, defaulting to 0 when
the level attribute is absent, empty or unparseable. -/
def getParagraphListLevel (props? : Option (List XmlNode)) : Option Int :=
  match props? with
  | none => none
  | some props =>
    match findNodeByTag props "w:numPr" with
    | none => none
    | some numPr =>
      match findNodeByTag (childrenOf numPr) "w:ilvl" with
      | none => some 0
      | some ilvl =>
        match nodeAttr ilvl "w:val" with
        | none => some 0
        | some raw => if raw = "" then some 0 else some (jsNumberLevel raw)

def paragraphProps (paragraph : List XmlNode) : Option (List XmlNode) :=
  (findNodeByTag paragraph "w:pPr").map childrenOf

def paragraphStyle (paragraph : List XmlNode) : Option String :=
  match paragraphProps paragraph with
  | none => none
  | some props =>
    match findNodeByTag props "w:pStyle" with
    | none => none
    | some styleNode => nodeAttr styleNode "w:val"

/-- The `w:r` children of a paragraph, each as its child list. -/
def runNodes (paragraph : List XmlNode) : List (List XmlNode) :=
  paragraph.filterMap (fun n =>
    match n with
    | .elem tag _ cs => if tag = "w:r" then some cs else none
    | .text _ => none)

/-- `basename(target)` from `node:path`: the final path segment. -/
def basename (s : String) : String := ⟨(splitAtChar '/' s.data).getLastD []⟩

/-- `normalizeInlineText(value)`: textually identical to `cleanLine` in
the source (collapse whitespace runs, trim). -/
def normalizeInlineText (s : String) : String := cleanLine s

def trimString (s : String) : String := ⟨trimL s.data⟩

def joinSpaceL : List (List Char) → List Char
  | [] => []
  | [x] => x
  | x :: y :: ys => x ++ ' ' :: joinSpaceL (y :: ys)

def joinNlL : List (List Char) → List Char
  | [] => []
  | [x] => x
  | x :: y :: ys => x ++ '\n' :: joinNlL (y :: ys)

structure RichSegment where
  text : String
  bold : Bool
  deriving DecidableEq

/-- `pushRichSegment(segments, value, bold)`: normalize the incoming
text, drop it when empty, merge space-joined into the last segment when
its bold state matches, else push a new segment.  The source stores
`bold: bold || undefined` and reads it back as `Boolean(previous?.bold)`;
the Bool field models that round-trip. -/
def pushRichSegment (segments : List RichSegment) (value : String) (bold : Bool) :
    List RichSegment :=
  let normalized := normalizeInlineText value
  if normalized = "" then segments
  else
    match segments.getLast? with
    | some previous =>
      if previous.bold = bold then
        segments.dropLast ++
          [{ previous with text := ⟨previous.text.data ++ ' ' :: normalized.data⟩ }]
      else segments ++ [{ text := normalized, bold := bold }]
    | none => segments ++ [{ text := normalized, bold := bold }]

/-! ### Theme resolver -/

structure ThemeLookup where
  id : String
  slug : String
  title : String
  normalizedTitle : String
  deriving DecidableEq

/-- The per-lookup normalization of `buildThemeResolver`:
`normalizeText(theme.normalizedTitle || theme.title)`. -/
def normalizeLookup (t : ThemeLookup) : ThemeLookup :=
  { t with normalizedTitle :=
      normalizeText (if t.normalizedTitle = "" then t.title else t.normalizedTitle) }

/-- Strip a leading "N. " ordinal: `heading.replace(pattern, '')` where
the pattern is digits, a dot, then whitespace, anchored at the start. -/
def stripOrdinal (l : List Char) : List Char :=
  let ds := l.takeWhile isAsciiDigit
  if ds = [] then l
  else
    match l.drop ds.length with
    | '.' :: rest => rest.dropWhile (fun c => isJsWs c)
    | _ => l

def headingNorm (heading : String) : String := normalizeText ⟨stripOrdinal heading.data⟩

def bestStep (acc : Option (ThemeLookup × ℚ)) (x : ThemeLookup × ℚ) :
    Option (ThemeLookup × ℚ) :=
  match acc with
  | none => some x
  | some b => if b.2 < x.2 then some x else acc

/-- Model of `.sort((a, b) => b.score - a.score)[0]`: a stable
descending sort's first element is the first element attaining the
maximal score. -/
def bestScored (l : List (ThemeLookup × ℚ)) : Option (ThemeLookup × ℚ) :=
  l.foldl bestStep none

/-- `buildThemeResolver(themes)` applied to a heading.  The exact-match
map is a JS `Map` built from the normalized list, so on duplicate
normalized titles the last entry wins, modelled by searching the
reversed list. -/
def resolveTheme (themes : List ThemeLookup) (heading : String) : Option ThemeLookup :=
  match (themes.map normalizeLookup).reverse.find?
      (fun t => t.normalizedTitle == headingNorm heading) with
  | some exact => some exact
  | none =>
    match bestScored ((themes.map normalizeLookup).map
        (fun t => (t, scoreNameMatch t.normalizedTitle (headingNorm heading)))) with
    | none => none
    | some best => if best.2 < 55 / 100 then none else some best.1

/-! ### Note blocks -/

inductive BlockKind where
  | text
  | image
  | table
  deriving DecidableEq

inductive TextRole where
  | paragraph
  | list_item
  | subheading
  deriving DecidableEq

def kindStr : BlockKind → String
  | .text => "text"
  | .image => "image"
  | .table => "table"

/-- `ParsedNoteBlock` from `types.ts`.  `richTextJson` holds
`JSON.stringify(richTextBuffer)` in the source; it is modelled
structurally as the serialized segment list itself. -/
structure ParsedNoteBlock where
  externalKey : String
  order : Nat
  kind : BlockKind
  text : Option String := none
  textRole : Option TextRole := none
  listLevel : Option Int := none
  richTextJson : Option (List RichSegment) := none
  sourceImageName : Option String := none
  imageTarget : Option String := none
  deriving DecidableEq

/-- The `Omit<ParsedNoteBlock, 'order' | 'externalKey'>` argument of
`createBlock`. -/
structure BlockInput where
  kind : BlockKind
  text : Option String := none
  textRole : Option TextRole := none
  listLevel : Option Int := none
  richTextJson : Option (List RichSegment) := none
  sourceImageName : Option String := none
  imageTarget : Option String := none
  deriving DecidableEq

/-- `String(nextOrder).padStart(4, '0')`. -/
def pad4 (s : List Char) : List Char := List.replicate (4 - s.length) '0' ++ s

/-- JS `a || b` on strings, with an optional left operand: `none` and
the empty string are falsy. -/
def jsOrStr : Option String → String → String
  | some s, d => if s = "" then d else s
  | none, d => d

/-- The external key template of `createBlock`:
the zero-padded order, the kind and the first 80 characters of the
slugified token base, dash-separated. -/
def mkExternalKey (order : Nat) (kind : BlockKind) (base : String) : String :=
  ⟨pad4 (decimalDigitsBE order) ++ '-' :: ((kindStr kind).data ++ '-' :: (slugify base).data.take 80)⟩

/-- `createBlock` from the parseDocx module, given the next per-theme
order value (the counter bookkeeping lives in `pushBlock` below). The
token base is `block.text || block.sourceImageName ||
kind-nextOrder`. -/
def createBlock (input : BlockInput) (nextOrder : Nat) : ParsedNoteBlock :=
  { externalKey := mkExternalKey nextOrder input.kind
      (jsOrStr input.text (jsOrStr input.sourceImageName
        (kindStr input.kind ++ "-" ++ jsNatToStr nextOrder)))
    order := nextOrder
    kind := input.kind
    text := input.text
    textRole := input.textRole
    listLevel := input.listLevel
    richTextJson := input.richTextJson
    sourceImageName := input.sourceImageName
    imageTarget := input.imageTarget }

/-- The mutable state of the `extractNotesFromDocx` walk. -/
structure DocxState where
  blocksByTheme : List (String × List ParsedNoteBlock)
  orderByTheme : List (String × Nat)
  usedImageTargets : List String
  unmatchedHeadings : List String
  currentThemeId : Option String

def initDocxState : DocxState :=
  { blocksByTheme := [], orderByTheme := [], usedImageTargets := [],
    unmatchedHeadings := [], currentThemeId := none }

/-- `pushBlock(themeId, block)`: bump the per-theme counter (absent
counts as 0) and append the created block to the theme's list (absent
counts as empty). -/
def pushBlock (tid : String) (input : BlockInput) (st : DocxState) : DocxState :=
  { st with
    orderByTheme := alSet st.orderByTheme tid (((alGet st.orderByTheme tid).getD 0) + 1)
    blocksByTheme := alSet st.blocksByTheme tid
      (((alGet st.blocksByTheme tid).getD []) ++
        [createBlock input (((alGet st.orderByTheme tid).getD 0) + 1)]) }

inductive DocxToken where
  | text (value : String) (bold : Bool)
  | image (sourceImageName : String) (imageTarget : String)
  deriving DecidableEq

/-- The tokens contributed by one child of a `w:r` run: the
whitespace-normalized collected text (when nonempty), then one image
token per embed reference resolving into the media folder. -/
def runChildTokens (rels : List (String × String)) (bold : Bool) (runChild : XmlNode) :
    List DocxToken :=
  let textValue := normalizeInlineText ⟨joinSpaceL ((collectTextFragments runChild).map String.data)⟩
  (if textValue ≠ "" then [DocxToken.text textValue bold] else []) ++
  (collectEmbedIds runChild).filterMap (fun embedId =>
    match alGet rels embedId with
    | none => none
    | some target =>
      if strStarts "media/" target then
        some (DocxToken.image (basename target) target)
      else none)

/-- The flat token stream of one paragraph. -/
def paragraphTokens (rels : List (String × String)) (paragraph : List XmlNode) :
    List DocxToken :=
  (runNodes paragraph).flatMap (fun run =>
    run.flatMap (fun runChild => runChildTokens rels (isRunBold run) runChild))

/-- The heading text of a paragraph: its text token values, space-joined
and cleaned. -/
def headingTextOf (tokens : List DocxToken) : String :=
  cleanLine ⟨joinSpaceL (tokens.filterMap (fun t =>
    match t with
    | DocxToken.text v _ => some v.data
    | DocxToken.image _ _ => none))⟩

/-- The role classification of `flushText`: `paragraph` without a list
level; `subheading` for an outermost list level whose first segment with
nonempty trimmed text is bold; `list_item` otherwise. -/
def flushRole (listLevel : Option Int) (buf : List RichSegment) : TextRole :=
  match listLevel with
  | none => TextRole.paragraph
  | some lvl =>
    if lvl = 0 ∧
        (((buf.find? (fun sg => trimString sg.text ≠ "")).map (fun sg => sg.bold)).getD false) then
      TextRole.subheading
    else TextRole.list_item

/-- The `flushText` closure of `extractNotesFromDocx`: emit the buffered
rich-text segments as one text block, classifying its role; emit nothing
when the buffer is empty or its joined text cleans to the empty
string. -/
def flushTextBuf (tid : String) (listLevel : Option Int) (buf : List RichSegment)
    (st : DocxState) : DocxState :=
  if buf = [] then st
  else if cleanLine ⟨joinSpaceL (buf.map (fun sg => sg.text.data))⟩ = "" then st
  else
    pushBlock tid
      { kind := BlockKind.text,
        text := some (cleanLine ⟨joinSpaceL (buf.map (fun sg => sg.text.data))⟩),
        textRole := some (flushRole listLevel buf),
        listLevel := listLevel, richTextJson := some buf } st

/-- The token loop of one paragraph: text tokens accumulate into the
rich-text buffer; an image token flushes the buffer, emits its own
image block and records the target as used; the paragraph ends with a
final flush. -/
def procTok (tid : String) (listLevel : Option Int) :
    List DocxToken → List RichSegment → DocxState → DocxState
  | [], buf, st => flushTextBuf tid listLevel buf st
  | DocxToken.text v b :: rest, buf, st =>
    procTok tid listLevel rest (pushRichSegment buf v b) st
  | DocxToken.image name target :: rest, buf, st =>
    let st1 := flushTextBuf tid listLevel buf st
    let st2 := pushBlock tid
      { kind := BlockKind.image, sourceImageName := some name,
        imageTarget := some target } st1
    procTok tid listLevel rest []
      { st2 with usedImageTargets := setAdd st2.usedImageTargets target }

/-- The paragraph case of the body walk: a nonempty `Heading2`
paragraph only moves the current theme (or records an unmatched
heading); other paragraphs are skipped without a current theme or
tokens, else streamed through the token loop. -/
def processParagraph (themes : List ThemeLookup) (rels : List (String × String))
    (paragraph : List XmlNode) (st : DocxState) : DocxState :=
  if paragraphStyle paragraph = some "Heading2" ∧
      headingTextOf (paragraphTokens rels paragraph) ≠ "" then
    match resolveTheme themes (headingTextOf (paragraphTokens rels paragraph)) with
    | some matchedTheme => { st with currentThemeId := some matchedTheme.id }
    | none => { st with unmatchedHeadings :=
        st.unmatchedHeadings ++ [headingTextOf (paragraphTokens rels paragraph)] }
  else
    match st.currentThemeId with
    | none => st
    | some tid =>
      if paragraphTokens rels paragraph = [] then st
      else procTok tid (getParagraphListLevel (paragraphProps paragraph))
        (paragraphTokens rels paragraph) [] st

/-- The table case of the body walk: all text fragments anywhere under
the table, cleaned, nonempty, newline-joined, emitted as one table
block when a theme is current. -/
def processTable (table : List XmlNode) (st : DocxState) : DocxState :=
  match st.currentThemeId with
  | none => st
  | some tid =>
    let tableText : String :=
      ⟨joinNlL ((((collectTextFragmentsList table).map (fun x => cleanLine x)).filter
        (fun x => x ≠ "")).map String.data)⟩
    if tableText = "" then st
    else pushBlock tid { kind := BlockKind.table, text := some tableText } st

def processBodyNode (themes : List ThemeLookup) (rels : List (String × String))
    (st : DocxState) (node : XmlNode) : DocxState :=
  match node with
  | XmlNode.text _ => st
  | XmlNode.elem tag _ cs =>
    if tag = "w:p" then processParagraph themes rels cs st
    else if tag = "w:tbl" then processTable cs st
    else st

structure ParsedDocxNotes where
  blocksByTheme : List (String × List ParsedNoteBlock)
  imageBytesByTarget : List (String × List Nat)
  unmatchedHeadings : List String
  deriving DecidableEq

/-- `extractNotesFromDocx` after package reading and XML parsing: walk
the body nodes in order, then fetch the bytes of every used image
target from the package exactly once, deduplicated by target path.
`body` is the parsed `w:body` child list, `rels` the relationship map,
`pkg` the zip contents keyed by path (bytes as `List Nat`); a missing
package entry is skipped. -/
def extractNotes (body : List XmlNode) (rels : List (String × String))
    (themes : List ThemeLookup) (pkg : List (String × List Nat)) : ParsedDocxNotes :=
  let final := body.foldl (processBodyNode themes rels) initDocxState
  { blocksByTheme := final.blocksByTheme
    imageBytesByTarget := final.usedImageTargets.filterMap (fun target =>
      (alGet pkg ("word/" ++ target)).map (fun bytes => (target, bytes)))
    unmatchedHeadings := final.unmatchedHeadings }

/-! ### Concrete fixtures used by witnesses -/

def lookupsFix : List ThemeLookup :=
  [{ id := "id1", slug := "algebra", title := "Algebra", normalizedTitle := "algebra" },
   { id := "id2", slug := "algebra-zaklady", title := "Algebra basics",
     normalizedTitle := "algebra basics" }]

def unmatchedParaFix : List XmlNode :=
  [XmlNode.elem "w:pPr" [] [XmlNode.elem "w:pStyle" [("w:val", "Heading2")] []],
   XmlNode.elem "w:r" [] [XmlNode.elem "w:t" [] [XmlNode.text "Mystery Topic"]]]

/-- A `Heading2` paragraph whose text exactly matches the first lookup
of `lookupsFix` after ordinal stripping. -/
def headingParaFix : XmlNode :=
  XmlNode.elem "w:p" []
    [XmlNode.elem "w:pPr" [] [XmlNode.elem "w:pStyle" [("w:val", "Heading2")] []],
     XmlNode.elem "w:r" [] [XmlNode.elem "w:t" [] [XmlNode.text "1. Algebra"]]]

/-- A body paragraph of two bold runs. -/
def boldParaFix : XmlNode :=
  XmlNode.elem "w:p" []
    [XmlNode.elem "w:r" [] [XmlNode.elem "w:rPr" [] [XmlNode.elem "w:b" [] []],
       XmlNode.elem "w:t" [] [XmlNode.text "Hello"]],
     XmlNode.elem "w:r" [] [XmlNode.elem "w:rPr" [] [XmlNode.elem "w:b" [] []],
       XmlNode.elem "w:t" [] [XmlNode.text "World"]]]

/-- A body paragraph holding one embedded image reference. -/
def imageParaFix : XmlNode :=
  XmlNode.elem "w:p" []
    [XmlNode.elem "w:r" [] [XmlNode.elem "w:drawing" []
      [XmlNode.elem "a:blip" [("r:embed", "rId1")] []]]]

def relsFix : List (String × String) := [("rId1", "media/image1.png")]

def pkgFix : List (String × List Nat) := [("word/media/image1.png", [1, 2, 3])]

/-- A document body: theme heading, one text paragraph, then the same
image twice. -/
def bodyFix : List XmlNode := [headingParaFix, boldParaFix, imageParaFix, imageParaFix]

/-- The block list the walk assembles for theme `id1` on `bodyFix`. -/
def blocksFix : List ParsedNoteBlock :=
  (alGet (extractNotes bodyFix relsFix lookupsFix pkgFix).blocksByTheme "id1").getD []

/-- The first of the two image blocks of `bodyFix` (the second block of
the theme overall). -/
def imageBlockFix : ParsedNoteBlock :=
  { externalKey := "0002-image-image1-png", order := 2, kind := BlockKind.image,
    sourceImageName := some "image1.png", imageTarget := some "media/image1.png" }

/-! ### Identity properties of the normalization pipeline -/

def noWsPair (a b : Char) : Prop := ¬(isJsWs a = true ∧ isJsWs b = true)

/-- The shape of a fully cleaned character list: any whitespace character
is a plain space, no two adjacent characters are whitespace, and neither
end is whitespace. -/
def CleanL (l : List Char) : Prop :=
  (∀ c ∈ l, isJsWs c = true → c = ' ') ∧
  l.Chain' noWsPair ∧
  (∀ c, l.head? = some c → isJsWs c = false) ∧
  (∀ c, l.getLast? = some c → isJsWs c = false)

/-! ### Walk invariants of the DOCX assembler -/

/-- The per-theme order counter always equals the length of that
theme's block list. -/
def counterSync (st : DocxState) : Prop :=
  ∀ tid, ((alGet st.orderByTheme tid).getD 0) =
    ((alGet st.blocksByTheme tid).getD []).length

/-- The block at position i of any theme's list carries order i+1, and
its external key starts with the digits of i+1. -/
def orderedKeys (st : DocxState) : Prop :=
  ∀ tid blocks, alGet st.blocksByTheme tid = some blocks →
    ∀ i (h : i < blocks.length),
      (blocks.get ⟨i, h⟩).order = i + 1 ∧
      keyOrderOf (blocks.get ⟨i, h⟩).externalKey = i + 1

/-- Every image target referenced by an emitted block is in the given
used-target list. -/
def blocksCovered (st : DocxState) (used : List String) : Prop :=
  ∀ tid blocks, alGet st.blocksByTheme tid = some blocks →
    ∀ b ∈ blocks, ∀ t, b.imageTarget = some t → t ∈ used

def docxInv (st : DocxState) : Prop :=
  counterSync st ∧ orderedKeys st ∧ blocksCovered st st.usedImageTargets ∧
    st.usedImageTargets.Nodup

/-! ### Proof devices for the rich-text merge law -/

/-- The buffer evolution of the token loop restricted to its text
action (image tokens leave the buffer parameter untouched in the fold;
the loop handles them separately). -/
def textFoldStep (bf : List RichSegment) (tok : DocxToken) : List RichSegment :=
  match tok with
  | DocxToken.text v bb => pushRichSegment bf v bb
  | DocxToken.image _ _ => bf

/-- Buffer shapes reachable from the empty buffer under same-bold
pushes: empty, or exactly one clean nonempty segment of that bold
state. -/
def goodBuf (b : Bool) (buf : List RichSegment) : Prop :=
  buf = [] ∨ ∃ t, buf = [{ text := t, bold := b }] ∧ CleanL t.data ∧ t ≠ ""

/-- A character that can appear in `normalizeText` output: a lowercase
ASCII letter, an ASCII digit, or a space. -/
def goodChar (c : Char) : Prop := isLowerAlnum c = true ∨ c = ' '

theorem isJsWs_space : isJsWs ' ' = true := by decide

theorem collapseWsAux_id (l : List Char) :
    (∀ c ∈ l, isJsWs c = true → c = ' ') → l.Chain' noWsPair →
    collapseWsAux l false = l ∧
      ((∀ c, l.head? = some c → isJsWs c = false) → collapseWsAux l true = l) := by
  induction l with
  | nil => exact fun _ _ => ⟨rfl, fun _ => rfl⟩
  | cons c rest ih =>
    intro hws hch
    have hpair := (List.chain'_cons'.mp hch).1
    have hch' := (List.chain'_cons'.mp hch).2
    have hws' : ∀ x ∈ rest, isJsWs x = true → x = ' ' :=
      fun x hx => hws x (List.mem_cons_of_mem _ hx)
    by_cases hc : isJsWs c = true
    · have hcs : c = ' ' := hws c (List.mem_cons_self _ _) hc
      have hhead : ∀ x, rest.head? = some x → isJsWs x = false := by
        intro x hx
        have := hpair x hx
        simp only [noWsPair, hc, true_and] at this
        exact Bool.not_eq_true _ ▸ (by simpa using this)
      constructor
      · show collapseWsAux (c :: rest) false = c :: rest
        simp only [collapseWsAux, hc, if_true, Bool.false_eq_true, if_false]
        rw [(ih hws' hch').2 hhead, hcs]
      · intro hh
        exact absurd (hh c rfl) (by simp [hc])
    · have hcb : isJsWs c = false := by simpa using hc
      refine ⟨?_, fun _ => ?_⟩ <;>
        · show collapseWsAux (c :: rest) _ = c :: rest
          simp only [collapseWsAux, hcb, if_false, Bool.false_eq_true]
          rw [(ih hws' hch').1]

theorem dropWhile_head_not {α : Type} (p : α → Bool) (l : List α) :
    ∀ c, (l.dropWhile p).head? = some c → p c = false := by
  induction l with
  | nil => intro c h; simp [List.dropWhile] at h
  | cons a rest ih =>
    intro c h
    by_cases ha : p a
    · exact ih c (by simpa [List.dropWhile, ha] using h)
    · simp [List.dropWhile, ha] at h
      simpa [← h] using ha

theorem dropWhile_id_of_head {α : Type} (p : α → Bool) (l : List α)
    (h : ∀ c, l.head? = some c → p c = false) : l.dropWhile p = l := by
  cases l with
  | nil => rfl
  | cons a rest => simp [List.dropWhile, h a rfl]

theorem mem_collapseWsAux (l : List Char) :
    ∀ b, ∀ c ∈ collapseWsAux l b, c = ' ' ∨ (c ∈ l ∧ isJsWs c = false) := by
  induction l with
  | nil => intro b c h; simp [collapseWsAux] at h
  | cons a rest ih =>
    intro b c h
    by_cases ha : isJsWs a = true
    · cases b with
      | true =>
        simp only [collapseWsAux, ha, if_true] at h
        rcases ih true c h with h' | h'
        · exact Or.inl h'
        · exact Or.inr ⟨List.mem_cons_of_mem _ h'.1, h'.2⟩
      | false =>
        simp only [collapseWsAux, ha, if_true] at h
        rcases List.mem_cons.mp h with rfl | h'
        · exact Or.inl rfl
        · rcases ih true c h' with h'' | h''
          · exact Or.inl h''
          · exact Or.inr ⟨List.mem_cons_of_mem _ h''.1, h''.2⟩
    · have hab : isJsWs a = false := by simpa using ha
      simp only [collapseWsAux, hab, Bool.false_eq_true, if_false] at h
      rcases List.mem_cons.mp h with rfl | h'
      · exact Or.inr ⟨List.mem_cons_self _ _, hab⟩
      · rcases ih false c h' with h'' | h''
        · exact Or.inl h''
        · exact Or.inr ⟨List.mem_cons_of_mem _ h''.1, h''.2⟩

theorem chain_collapseWsAux (l : List Char) :
    (List.Chain' noWsPair (collapseWsAux l true) ∧
      ∀ c, (collapseWsAux l true).head? = some c → isJsWs c = false) ∧
    List.Chain' noWsPair (collapseWsAux l false) := by
  induction l with
  | nil => exact ⟨⟨List.chain'_nil, by intro c h; simp [collapseWsAux] at h⟩, List.chain'_nil⟩
  | cons a rest ih =>
    by_cases ha : isJsWs a = true
    · refine ⟨⟨?_, ?_⟩, ?_⟩
      · simpa [collapseWsAux, ha] using ih.1.1
      · intro c h
        exact ih.1.2 c (by simpa [collapseWsAux, ha] using h)
      · show List.Chain' noWsPair (collapseWsAux (a :: rest) false)
        simp only [collapseWsAux, ha, if_true]
        refine List.chain'_cons'.mpr ⟨?_, ih.1.1⟩
        intro y hy
        have := ih.1.2 y hy
        simp [noWsPair, this]
    · have hab : isJsWs a = false := by simpa using ha
      have hcons : List.Chain' noWsPair (a :: collapseWsAux rest false) := by
        refine List.chain'_cons'.mpr ⟨?_, ih.2⟩
        intro y _
        simp [noWsPair, hab]
      refine ⟨⟨?_, ?_⟩, ?_⟩
      · simpa [collapseWsAux, hab] using hcons
      · intro c h
        simp only [collapseWsAux, hab, Bool.false_eq_true, if_false, List.head?_cons,
          Option.some.injEq] at h
        simpa [← h] using hab
      · simpa [collapseWsAux, hab] using hcons

theorem trimEndL_prefix (l : List Char) : trimEndL l <+: l := by
  unfold trimEndL
  have h := List.dropWhile_suffix (l := l.reverse) (p := fun c => isJsWs c)
  obtain ⟨t, ht⟩ := h
  refine ⟨t.reverse, ?_⟩
  have := congrArg List.reverse ht
  simpa [List.reverse_append] using this

theorem prefix_head?_eq {α : Type} {l₁ l₂ : List α} (h : l₁ <+: l₂) (hne : l₁ ≠ []) :
    l₂.head? = l₁.head? := by
  obtain ⟨t, rfl⟩ := h
  cases l₁ with
  | nil => exact absurd rfl hne
  | cons a r => rfl

theorem trimEndL_getLast (l : List Char) :
    ∀ c, (trimEndL l).getLast? = some c → isJsWs c = false := by
  intro c h
  unfold trimEndL at h
  rw [List.getLast?_reverse] at h
  exact dropWhile_head_not _ _ c h

theorem cleanL_and_mem_cleanLineL (l : List Char) :
    CleanL (cleanLineL l) ∧ (∀ c ∈ cleanLineL l, c = ' ' ∨ (c ∈ l ∧ isJsWs c = false)) := by
  have hmem_m : ∀ c ∈ collapseWs l, c = ' ' ∨ (c ∈ l ∧ isJsWs c = false) :=
    mem_collapseWsAux l false
  have hch_m : List.Chain' noWsPair (collapseWs l) := (chain_collapseWsAux l).2
  set d := (collapseWs l).dropWhile (fun c => isJsWs c) with hd
  have hd_suffix : d <:+ collapseWs l := List.dropWhile_suffix _
  have hch_d : List.Chain' noWsPair d := hch_m.suffix hd_suffix
  have hmem_d : ∀ c ∈ d, c = ' ' ∨ (c ∈ l ∧ isJsWs c = false) :=
    fun c hc => hmem_m c (List.Sublist.mem hc hd_suffix.sublist)
  have hhead_d : ∀ c, d.head? = some c → isJsWs c = false :=
    fun c hc => dropWhile_head_not _ _ c hc
  have ht_prefix : trimEndL d <+: d := trimEndL_prefix d
  have hres : cleanLineL l = trimEndL d := rfl
  have hmem_t : ∀ c ∈ trimEndL d, c = ' ' ∨ (c ∈ l ∧ isJsWs c = false) :=
    fun c hc => hmem_d c (List.Sublist.mem hc ht_prefix.sublist)
  refine ⟨⟨?_, ?_, ?_, ?_⟩, ?_⟩
  · intro c hc hws
    rcases hmem_t c hc with h | h
    · exact h
    · exact absurd hws (by simp [h.2])
  · exact hch_d.prefix ht_prefix
  · intro c hc
    rcases ht : trimEndL d with _ | ⟨a, r⟩
    · rw [hres, ht] at hc; simp at hc
    · have hne : trimEndL d ≠ [] := by simp [ht]
      have := prefix_head?_eq ht_prefix hne
      rw [hres] at hc
      exact hhead_d c (this ▸ hc)
  · intro c hc
    exact trimEndL_getLast d c (hres ▸ hc)
  · exact hmem_t

theorem cleanLineL_id (l : List Char) (h : CleanL l) : cleanLineL l = l := by
  obtain ⟨hws, hch, hhead, hlast⟩ := h
  have h1 : collapseWs l = l := (collapseWsAux_id l hws hch).1
  have h2 : l.dropWhile (fun c => isJsWs c) = l :=
    dropWhile_id_of_head _ l (fun c hc => hhead c hc)
  have h3 : trimEndL l = l := by
    unfold trimEndL
    rw [dropWhile_id_of_head, List.reverse_reverse]
    intro c hc
    rw [List.head?_reverse] at hc
    exact hlast c hc
  show trimEndL ((collapseWs l).dropWhile (fun c => isJsWs c)) = l
  rw [h1, h2, h3]

theorem uint32_toNat_inj {a b : UInt32} (h : a.toNat = b.toNat) : a = b := by
  cases a; cases b
  simp only [UInt32.toNat] at h
  congr 1
  exact BitVec.eq_of_toNat_eq h

theorem char_toNat_inj {c d : Char} (h : c.toNat = d.toNat) : c = d :=
  Char.ext (uint32_toNat_inj h)

theorem goodChar_toNat_lt (c : Char) (h : goodChar c) : c.toNat < 128 := by
  rcases h with h | rfl
  · simp [isLowerAlnum] at h
    omega
  · decide

theorem nfdChar_good (c : Char) (h : goodChar c) : nfdChar c = [c] := by
  unfold nfdChar
  rw [if_pos (goodChar_toNat_lt c h)]

theorem notCombining_good (c : Char) (h : goodChar c) : (!isCombiningMark c) = true := by
  have := goodChar_toNat_lt c h
  simp [isCombiningMark]
  omega

theorem toLowerChar_good (c : Char) (h : goodChar c) : toLowerChar c = c := by
  unfold toLowerChar
  rcases h with h | rfl
  · simp [isLowerAlnum] at h
    rw [if_neg]
    simp
    omega
  · decide

theorem keepChar_good (c : Char) (h : goodChar c) : keepChar c = c := by
  unfold keepChar
  rcases h with h | rfl
  · rw [if_pos]
    simp [h]
  · rw [if_pos]
    simp [isJsWs_space]

theorem ws_good (c : Char) (h : goodChar c) (hws : isJsWs c = true) : c = ' ' := by
  rcases h with h | rfl
  · exfalso
    simp [isLowerAlnum] at h
    simp [isJsWs] at hws
    omega
  · rfl

theorem flatMap_id_of {α : Type} (f : α → List α) (l : List α)
    (h : ∀ c ∈ l, f c = [c]) : l.flatMap f = l := by
  induction l with
  | nil => rfl
  | cons a rest ih =>
    rw [List.flatMap_cons, h a (List.mem_cons_self _ _),
      ih (fun c hc => h c (List.mem_cons_of_mem _ hc))]
    rfl

theorem map_id_of {α : Type} (f : α → α) (l : List α)
    (h : ∀ c ∈ l, f c = c) : l.map f = l := by
  induction l with
  | nil => rfl
  | cons a rest ih =>
    rw [List.map_cons, h a (List.mem_cons_self _ _),
      ih (fun c hc => h c (List.mem_cons_of_mem _ hc))]

theorem preNormalizeL_id (l : List Char) (h : ∀ c ∈ l, goodChar c) :
    preNormalizeL l = l := by
  unfold preNormalizeL
  rw [flatMap_id_of nfdChar l (fun c hc => nfdChar_good c (h c hc)),
    List.filter_eq_self.mpr (fun c hc => notCombining_good c (h c hc)),
    map_id_of toLowerChar l (fun c hc => toLowerChar_good c (h c hc)),
    map_id_of keepChar l (fun c hc => keepChar_good c (h c hc))]

theorem goodChar_mem_normalizeTextL (l : List Char) :
    ∀ c ∈ normalizeTextL l, goodChar c := by
  intro c hc
  rcases (cleanL_and_mem_cleanLineL (preNormalizeL l)).2 c hc with rfl | ⟨hmem, hnws⟩
  · exact Or.inr rfl
  · rcases List.mem_map.mp hmem with ⟨y, _, rfl⟩
    by_cases hy : (isLowerAlnum y || isJsWs y) = true
    · have hk : keepChar y = y := by
        unfold keepChar
        rw [if_pos hy]
      rw [hk] at hnws ⊢
      rcases (Bool.or_eq_true _ _).mp hy with h | h
      · exact Or.inl h
      · rw [h] at hnws
        cases hnws
    · have hk : keepChar y = ' ' := by
        unfold keepChar
        rw [if_neg hy]
      rw [hk]
      exact Or.inr rfl

theorem normalizeTextL_idem (l : List Char) :
    normalizeTextL (normalizeTextL l) = normalizeTextL l := by
  have h1 : preNormalizeL (normalizeTextL l) = normalizeTextL l :=
    preNormalizeL_id _ (goodChar_mem_normalizeTextL l)
  have h2 : CleanL (normalizeTextL l) := (cleanL_and_mem_cleanLineL (preNormalizeL l)).1
  show cleanLineL (preNormalizeL (normalizeTextL l)) = normalizeTextL l
  rw [h1]
  exact cleanLineL_id _ h2

/-- C9: for every string s, normalizeText (normalizeText s) = normalizeText s:
normalizeText is idempotent. -/
theorem normalizeText_idempotent (s : String) :
    normalizeText (normalizeText s) = normalizeText s := by
  show (⟨normalizeTextL (String.data ⟨normalizeTextL s.data⟩)⟩ : String) = ⟨normalizeTextL s.data⟩
  exact congrArg String.mk (normalizeTextL_idem s.data)

/-! ### Properties of scoreNameMatch -/

theorem scoreNameMatch_eq_zero_of_disjoint (a b : String) (hne : a ≠ b)
    (h : ∀ t ∈ tokensOf a, t ∉ tokensOf b) : scoreNameMatch a b = 0 := by
  unfold scoreNameMatch
  rw [if_neg hne]
  by_cases he : tokensOf a = [] ∨ tokensOf b = []
  · rw [if_pos he]
  · rw [if_neg he]
    have hf : (tokensOf a).filter (fun t => decide (t ∈ tokensOf b)) = [] := by
      rw [List.filter_eq_nil_iff]
      intro t ht
      simpa using h t ht
    simp only [hf]
    simp

/-- C4 (amended): scoreNameMatch lies in [0, 1]; it returns 1 when a = b;
when a and b differ it returns 0 when either single-space-token list is
empty and the token-overlap ratio otherwise; in particular it returns 0
whenever a and b differ and their token lists are disjoint. -/
theorem scoreNameMatch_spec (a b : String) :
    (0 ≤ scoreNameMatch a b ∧ scoreNameMatch a b ≤ 1) ∧
    (a = b → scoreNameMatch a b = 1) ∧
    (a ≠ b → (tokensOf a = [] ∨ tokensOf b = []) → scoreNameMatch a b = 0) ∧
    (a ≠ b → tokensOf a ≠ [] → tokensOf b ≠ [] →
      scoreNameMatch a b =
        (((tokensOf a).filter (fun t => t ∈ tokensOf b)).length : ℚ) /
          ((max (tokensOf a).length (tokensOf b).length : ℕ) : ℚ)) ∧
    (a ≠ b → (∀ t ∈ tokensOf a, t ∉ tokensOf b) → scoreNameMatch a b = 0) := by
  refine ⟨?_, ?_, ?_, ?_, ?_⟩
  · unfold scoreNameMatch
    split
    · norm_num
    · dsimp only
      split
      · norm_num
      · rename_i hne
        push_neg at hne
        have hpos : (0 : ℚ) < ((max (tokensOf a).length (tokensOf b).length : ℕ) : ℚ) := by
          have : 0 < (tokensOf a).length := List.length_pos.mpr hne.1
          have hm : 0 < max (tokensOf a).length (tokensOf b).length :=
            lt_of_lt_of_le this (le_max_left _ _)
          exact_mod_cast hm
        constructor
        · apply div_nonneg _ (le_of_lt hpos)
          positivity
        · rw [div_le_one hpos]
          have hlen : ((tokensOf a).filter (fun t => decide (t ∈ tokensOf b))).length ≤
              max (tokensOf a).length (tokensOf b).length :=
            le_trans (List.length_filter_le _ _) (le_max_left _ _)
          exact_mod_cast hlen
  · intro h
    unfold scoreNameMatch
    rw [if_pos h]
  · intro hne he
    unfold scoreNameMatch
    rw [if_neg hne, if_pos he]
  · intro hne ha hb
    unfold scoreNameMatch
    rw [if_neg hne, if_neg (by simp [ha, hb])]
  · exact scoreNameMatch_eq_zero_of_disjoint a b

/-- C4 counterexample to the claim as stated: (i) the equal empty strings
share no tokens, yet the score is 1, not 0; (ii) tokens are split on the
single space character and not on general whitespace: the strings "x\ty"
and "x y" have identical whitespace-delimited token sets yet score 0. -/
theorem scoreNameMatch_claim_counterexample :
    ((∀ t ∈ tokensOf "", t ∉ tokensOf "") ∧ scoreNameMatch "" "" = 1) ∧
    scoreNameMatch "x\ty" "x y" = 0 := by
  refine ⟨⟨by decide, ?_⟩, ?_⟩
  · unfold scoreNameMatch
    rw [if_pos rfl]
  · exact scoreNameMatch_eq_zero_of_disjoint _ _ (by decide) (by decide)

/-- C4 witness: the amended characterization applied at concrete inputs. -/
theorem scoreNameMatch_spec_witness :
    scoreNameMatch "ab" "cd" = 0 ∧ scoreNameMatch "q" "q" = 1 :=
  ⟨(scoreNameMatch_spec "ab" "cd").2.2.2.2 (by decide) (by decide),
   (scoreNameMatch_spec "q" "q").2.1 rfl⟩

/-! ### Claim C6: wrapped subtheme brackets -/

/-- C6 counterexample: fed exactly the two-line input named by the
claim, parseCurriculumText emits no course at all, because flushTheme is
a no-op while no known course title has been seen, so no theme with the
claimed subthemes exists in the result. -/
theorem parseCurriculumText_two_line_counterexample :
    (parseCurriculumText
        "1. Základy matematickej logiky [logické operácie, formuly,\nvýrokové funkcie]").courses
      = [] := by
  decide

/-- C6 (amended): when the two wrapped lines are preceded by a known
course title line, the parser reassembles the wrapped theme and yields
the full subtheme list. -/
theorem parseCurriculumText_wrapped_subthemes :
    ((parseCurriculumText
        "Diskrétna matematika\n1. Základy matematickej logiky [logické operácie, formuly,\nvýrokové funkcie]").courses.map
      (fun c => c.themes.map (fun t => t.subthemes)))
      = [[["logické operácie", "formuly", "výrokové funkcie"]]] := by
  decide

/-! ### Claim C8: global theme order is strictly increasing -/

theorem parseTheme_order (raw : String) (n : Nat) (cs : String) (o : Nat) :
    (parseTheme raw n cs o).order = o := rfl

theorem parseTheme_number (raw : String) (n : Nat) (cs : String) (o : Nat) :
    (parseTheme raw n cs o).number = n := rfl

theorem dropLast_append_of_getLast? {α : Type} (l : List α) (a : α)
    (h : l.getLast? = some a) : l.dropLast ++ [a] = l := by
  have hne : l ≠ [] := by rintro rfl; simp at h
  have h2 := List.dropLast_append_getLast hne
  rw [List.getLast?_eq_getLast l hne, Option.some_inj] at h
  rw [← h]
  exact h2

theorem flushTheme_eq (s : PCState) (c : ParsedCourse) (num : Nat) (txt : String)
    (hg : s.courses.getLast? = some c) (hp : s.pendingTheme = some (num, txt)) :
    flushTheme s =
      { courses := s.courses.dropLast ++
          [{ c with themes := c.themes ++ [parseTheme txt num c.slug s.globalOrder] }],
        pendingTheme := none, globalOrder := s.globalOrder + 1 } := by
  unfold flushTheme
  rw [hg, hp]

theorem flushTheme_eq_of_noCourse (s : PCState) (hg : s.courses.getLast? = none) :
    flushTheme s = s := by
  unfold flushTheme
  rw [hg]

theorem flushTheme_eq_of_noPending (s : PCState) (hp : s.pendingTheme = none) :
    flushTheme s = s := by
  unfold flushTheme
  rw [hp]
  rcases s.courses.getLast? with _ | c <;> rfl

theorem allThemes_flushTheme_eq (s : PCState) (c : ParsedCourse) (num : Nat) (txt : String)
    (hg : s.courses.getLast? = some c) (hp : s.pendingTheme = some (num, txt)) :
    allThemes (flushTheme s) =
      allThemes s ++ [parseTheme txt num c.slug s.globalOrder] := by
  rw [flushTheme_eq s c num txt hg hp]
  show (s.courses.dropLast ++
      [{ c with themes := c.themes ++ [parseTheme txt num c.slug s.globalOrder] }]).flatMap
      (fun c => c.themes) = allThemes s ++ [parseTheme txt num c.slug s.globalOrder]
  rw [List.flatMap_append]
  conv_rhs => rw [show allThemes s = s.courses.flatMap (fun c => c.themes) from rfl,
    ← dropLast_append_of_getLast? s.courses c hg, List.flatMap_append]
  simp

theorem pcOrdersOK_flushTheme (s : PCState) (h : pcOrdersOK s) :
    pcOrdersOK (flushTheme s) := by
  rcases hg : s.courses.getLast? with _ | c
  · rw [flushTheme_eq_of_noCourse s hg]; exact h
  · rcases hp : s.pendingTheme with _ | ⟨num, txt⟩
    · rw [flushTheme_eq_of_noPending s hp]; exact h
    · have hAll := allThemes_flushTheme_eq s c num txt hg hp
      have hOrd : (flushTheme s).globalOrder = s.globalOrder + 1 := by
        rw [flushTheme_eq s c num txt hg hp]
      constructor
      · rw [hAll, List.map_append, List.pairwise_append]
        refine ⟨h.1, by simp, ?_⟩
        intro a ha b hb
        simp only [List.map_cons, List.map_nil, List.mem_singleton] at hb
        rcases List.mem_map.mp ha with ⟨t, ht, rfl⟩
        rw [hb, parseTheme_order]
        exact h.2 t ht
      · intro t ht
        rw [hOrd]
        rw [hAll] at ht
        rcases List.mem_append.mp ht with ht' | ht'
        · exact Nat.lt_succ_of_lt (h.2 t ht')
        · rcases List.mem_singleton.mp ht' with rfl
          rw [parseTheme_order]
          exact Nat.lt_succ_self _

theorem pcOrdersOK_processLine (s : PCState) (line : String) (h : pcOrdersOK s) :
    pcOrdersOK (processLine s line) := by
  have hflush := pcOrdersOK_flushTheme s h
  unfold processLine
  by_cases hc : line ∈ knownCourseTitles
  · rw [if_pos hc]
    have hAll : allThemes { flushTheme s with courses := (flushTheme s).courses ++
        [{ slug := slugify line, title := line, order := (flushTheme s).courses.length + 1,
           themes := [] }] } = allThemes (flushTheme s) := by
      show ((flushTheme s).courses ++ _).flatMap (fun c => c.themes) = _
      rw [List.flatMap_append]
      simp [allThemes]
    exact ⟨hAll ▸ hflush.1, fun t ht => hflush.2 t (hAll ▸ ht)⟩
  · rw [if_neg hc]
    rcases hm : matchThemeStart line.data with _ | ⟨n, txt⟩
    · rcases hpend : s.pendingTheme with _ | ⟨nn, tt⟩
      · exact h
      · exact ⟨h.1, h.2⟩
    · exact ⟨hflush.1, hflush.2⟩

theorem pcOrdersOK_foldl (lines : List String) (s : PCState) (h : pcOrdersOK s) :
    pcOrdersOK (lines.foldl processLine s) := by
  induction lines generalizing s with
  | nil => exact h
  | cons l rest ih => exact ih _ (pcOrdersOK_processLine s l h)

/-- C8: for every input to parseCurriculumText, the order values
assigned to themes across the whole parsed document are strictly
increasing in emission order, independent of course grouping. -/
theorem parseCurriculumText_orders_strict (text : String) :
    (((parseCurriculumText text).courses.flatMap (fun c => c.themes)).map
        (fun t => t.order)).Pairwise (fun a b => a < b) := by
  have h0 : pcOrdersOK { courses := [], pendingTheme := none, globalOrder := 1 } :=
    ⟨by simp [allThemes], by simp [allThemes]⟩
  have h1 := pcOrdersOK_foldl (curriculumLines text) _ h0
  exact (pcOrdersOK_flushTheme _ h1).1

/-! ### Claim C10: a pending theme survives the first course heading -/

theorem processLine_eq_course (s : PCState) (line : String)
    (hc : line ∈ knownCourseTitles) :
    processLine s line =
      { flushTheme s with courses := (flushTheme s).courses ++
          [{ slug := slugify line, title := line,
             order := (flushTheme s).courses.length + 1, themes := [] }] } := by
  unfold processLine
  rw [if_pos hc]

theorem c10Placed_flushTheme (n g : Nat) (s : PCState) (h : c10Placed n g s) :
    c10Placed n g (flushTheme s) := by
  obtain ⟨c, cs, hcourses, t, ts, hthemes, hnum, hord⟩ := h
  rcases hp : s.pendingTheme with _ | ⟨num, txt⟩
  · rw [flushTheme_eq_of_noPending s hp]
    exact ⟨c, cs, hcourses, t, ts, hthemes, hnum, hord⟩
  · have hne : s.courses ≠ [] := by rw [hcourses]; simp
    have hg : s.courses.getLast? = some (s.courses.getLast hne) :=
      List.getLast?_eq_getLast _ hne
    rw [flushTheme_eq s _ num txt hg hp]
    have hdec := dropLast_append_of_getLast? s.courses _ hg
    rcases hd : s.courses.dropLast with _ | ⟨d, dl⟩
    · rw [hd, List.nil_append] at hdec
      have h2 : [s.courses.getLast hne] = c :: cs := hdec.trans hcourses
      have hlast : s.courses.getLast hne = c := (List.cons.inj h2).1
      refine ⟨_, [], rfl, t, ts ++ [parseTheme txt num
        ((s.courses.getLast hne).slug) s.globalOrder], ?_, hnum, hord⟩
      show (s.courses.getLast hne).themes ++ [_] = t :: _
      rw [hlast, hthemes]
      rfl
    · have h2 : d :: (dl ++ [s.courses.getLast hne]) = c :: cs := by
        rw [hd] at hdec
        exact hdec.trans hcourses
      have hdc : d = c := (List.cons.inj h2).1
      refine ⟨c, dl ++ [{ s.courses.getLast hne with
        themes := (s.courses.getLast hne).themes ++
          [parseTheme txt num (s.courses.getLast hne).slug s.globalOrder] }],
        ?_, t, ts, hthemes, hnum, hord⟩
      rw [hdc]
      rfl

theorem c10Pending_flushTheme (n g : Nat) (s : PCState) (h : c10Pending n g s) :
    c10Placed n g (flushTheme s) := by
  obtain ⟨c, hcourses, hthemes, ⟨txt, hp⟩, hg⟩ := h
  have hgl : s.courses.getLast? = some c := by rw [hcourses]; rfl
  rw [flushTheme_eq s c n txt hgl hp]
  refine ⟨{ c with themes := c.themes ++ [parseTheme txt n c.slug s.globalOrder] },
    [], ?_, parseTheme txt n c.slug s.globalOrder, [], ?_, ?_, ?_⟩
  · show s.courses.dropLast ++ _ = _
    rw [hcourses]
    rfl
  · show c.themes ++ _ = _
    rw [hthemes]
    rfl
  · exact parseTheme_number _ _ _ _
  · rw [parseTheme_order, hg]

theorem c10Inv_processLine (n g : Nat) (s : PCState) (line : String)
    (h : c10Inv n g s) : c10Inv n g (processLine s line) := by
  have hplaced : c10Placed n g (flushTheme s) := by
    rcases h with h | h
    · exact c10Placed_flushTheme n g s h
    · exact c10Pending_flushTheme n g s h
  unfold processLine
  by_cases hc : line ∈ knownCourseTitles
  · rw [if_pos hc]
    left
    obtain ⟨c, cs, hcourses, t, ts, hthemes, hnum, hord⟩ := hplaced
    refine ⟨c, cs ++
      [{ slug := slugify line, title := line,
         order := (flushTheme s).courses.length + 1, themes := [] }],
      ?_, t, ts, hthemes, hnum, hord⟩
    show (flushTheme s).courses ++ _ = c :: _
    rw [hcourses]
    rfl
  · rw [if_neg hc]
    rcases hm : matchThemeStart line.data with _ | ⟨nn, txt⟩
    · rcases hpend : s.pendingTheme with _ | ⟨nn, tt⟩
      · exact h
      · rcases h with hP | hP
        · left
          obtain ⟨c, cs, hcourses, t, ts, hthemes, hnum, hord⟩ := hP
          exact ⟨c, cs, hcourses, t, ts, hthemes, hnum, hord⟩
        · right
          obtain ⟨c, hcourses, hthemes, ⟨txt0, hp0⟩, hg0⟩ := hP
          have h1 : (n, txt0) = (nn, tt) := Option.some.inj (hp0.symm.trans hpend)
          have hn : n = nn := congrArg Prod.fst h1
          subst hn
          exact ⟨c, hcourses, hthemes, ⟨_, rfl⟩, hg0⟩
    · left
      obtain ⟨c, cs, hcourses, t, ts, hthemes, hnum, hord⟩ := hplaced
      exact ⟨c, cs, hcourses, t, ts, hthemes, hnum, hord⟩

theorem c10Inv_foldl (n g : Nat) (lines : List String) (s : PCState)
    (h : c10Inv n g s) : c10Inv n g (lines.foldl processLine s) := by
  induction lines generalizing s with
  | nil => exact h
  | cons l rest ih => exact ih _ (c10Inv_processLine n g s l h)

theorem processLine_noCourse (s : PCState) (line : String)
    (hc : line ∉ knownCourseTitles) (h : s.courses = []) :
    (processLine s line).courses = [] ∧
      (processLine s line).globalOrder = s.globalOrder := by
  have hflush : flushTheme s = s := flushTheme_eq_of_noCourse s (by rw [h]; rfl)
  unfold processLine
  rw [if_neg hc]
  rcases hm : matchThemeStart line.data with _ | ⟨nn, txt⟩
  · rcases hpend : s.pendingTheme with _ | ⟨nn, tt⟩
    · exact ⟨h, rfl⟩
    · exact ⟨h, rfl⟩
  · rw [hflush]
    exact ⟨h, rfl⟩

theorem foldl_noCourse (ls : List String) (hno : ∀ l ∈ ls, l ∉ knownCourseTitles) :
    ∀ s : PCState, s.courses = [] →
      (ls.foldl processLine s).courses = [] ∧
      (ls.foldl processLine s).globalOrder = s.globalOrder := by
  induction ls with
  | nil => exact fun s hs => ⟨hs, rfl⟩
  | cons l rest ih =>
    intro s hs
    have h1 := processLine_noCourse s l (hno l (List.mem_cons_self _ _)) hs
    have h2 := ih (fun x hx => hno x (List.mem_cons_of_mem _ hx)) _ h1.1
    exact ⟨h2.1, h2.2.trans h1.2⟩

/-- C10: in any input whose cleaned line list is a prefix with no known
course title (but ending with a pending numbered theme), then a known
course title, then anything, the pre-course pending theme is not
discarded: flushTheme is a no-op while no course exists, so the stale
pending theme survives the course-heading flush and is emitted as the
first theme of the first course, which appears after it in the
document, at global order 1. -/
theorem pending_theme_survives (text : String) (pre rest : List String)
    (title : String) (n : Nat) (txt : String)
    (hsplit : curriculumLines text = pre ++ title :: rest)
    (hpre : ∀ l ∈ pre, l ∉ knownCourseTitles)
    (htitle : title ∈ knownCourseTitles)
    (hpending : (pre.foldl processLine
        { courses := [], pendingTheme := none, globalOrder := 1 }).pendingTheme
      = some (n, txt)) :
    ∃ c cs, (parseCurriculumText text).courses = c :: cs ∧
      ∃ t ts, c.themes = t :: ts ∧ t.number = n ∧ t.order = 1 := by
  have hs1 := foldl_noCourse pre hpre
    { courses := [], pendingTheme := none, globalOrder := 1 } rfl
  have hstep : c10Inv n 1 (processLine (pre.foldl processLine
      { courses := [], pendingTheme := none, globalOrder := 1 }) title) := by
    have hflush : flushTheme (pre.foldl processLine
        { courses := [], pendingTheme := none, globalOrder := 1 }) = _ :=
      flushTheme_eq_of_noCourse _ (by rw [hs1.1]; rfl)
    rw [processLine_eq_course _ _ htitle]
    right
    refine ⟨{ slug := slugify title, title := title,
              order := (flushTheme (pre.foldl processLine
                  { courses := [], pendingTheme := none,
                    globalOrder := 1 })).courses.length + 1,
              themes := [] }, ?_, rfl, ⟨txt, ?_⟩, ?_⟩
    · show (flushTheme _).courses ++ _ = [_]
      rw [hflush, hs1.1]
      rfl
    · show (flushTheme _).pendingTheme = _
      rw [hflush]
      exact hpending
    · show (flushTheme _).globalOrder = 1
      rw [hflush]
      exact hs1.2
  have hfold : c10Inv n 1 ((curriculumLines text).foldl processLine
      { courses := [], pendingTheme := none, globalOrder := 1 }) := by
    rw [hsplit, List.foldl_append]
    exact c10Inv_foldl n 1 rest _ hstep
  have hfinal : c10Placed n 1 (flushTheme ((curriculumLines text).foldl processLine
      { courses := [], pendingTheme := none, globalOrder := 1 })) := by
    rcases hfold with h | h
    · exact c10Placed_flushTheme _ _ _ h
    · exact c10Pending_flushTheme _ _ _ h
  obtain ⟨c, cs, hc, t, ts, ht, hnum, hord⟩ := hfinal
  exact ⟨c, cs, hc, t, ts, ht, hnum, hord⟩

/-- C10 witness: a concrete document whose first numbered theme line
precedes the first course title line. -/
theorem pending_theme_survives_witness :
    ∃ c cs, (parseCurriculumText "1. Grupy [x]\nAlgebra").courses = c :: cs ∧
      ∃ t ts, c.themes = t :: ts ∧ t.number = 1 ∧ t.order = 1 :=
  pending_theme_survives "1. Grupy [x]\nAlgebra" ["1. Grupy [x]"] [] "Algebra" 1 "Grupy [x]"
    (by decide) (by decide) (by decide) (by decide)

/-! ### Claims C2 and C3: theme resolution -/

theorem find?_eq_head?_filter {α : Type} (p : α → Bool) (l : List α) :
    l.find? p = (l.filter p).head? := by
  induction l with
  | nil => rfl
  | cons a rest ih =>
    by_cases h : p a
    · rw [List.find?_cons_of_pos _ h, List.filter_cons_of_pos h]
      rfl
    · rw [List.find?_cons_of_neg _ h, List.filter_cons_of_neg h, ih]

/-- C2: when exactly one normalized lookup's title equals the
normalized heading (after stripping a leading ordinal prefix),
resolveTheme returns that entry through the exact-match map, never a
fuzzy alternative, whatever the other entries would score. -/
theorem resolveTheme_exact (themes : List ThemeLookup) (heading : String)
    (t : ThemeLookup)
    (h : (themes.map normalizeLookup).filter
        (fun u => u.normalizedTitle == headingNorm heading) = [t]) :
    resolveTheme themes heading = some t := by
  unfold resolveTheme
  have hfind : (themes.map normalizeLookup).reverse.find?
      (fun u => u.normalizedTitle == headingNorm heading) = some t := by
    rw [find?_eq_head?_filter, List.filter_reverse, h]
    rfl
  rw [hfind]

/-- C2 witness: the heading "3. Algebra" matches exactly one lookup. -/
theorem resolveTheme_exact_witness :
    resolveTheme lookupsFix "3. Algebra" =
      some (normalizeLookup
        { id := "id1", slug := "algebra", title := "Algebra",
          normalizedTitle := "algebra" }) :=
  resolveTheme_exact lookupsFix "3. Algebra"
    (normalizeLookup
      { id := "id1", slug := "algebra", title := "Algebra",
        normalizedTitle := "algebra" }) (by decide)

theorem bestScored_mem (l : List (ThemeLookup × ℚ)) (x : ThemeLookup × ℚ)
    (h : bestScored l = some x) : x ∈ l := by
  have haux : ∀ (l : List (ThemeLookup × ℚ)) (acc : Option (ThemeLookup × ℚ))
      (x : ThemeLookup × ℚ), l.foldl bestStep acc = some x → x ∈ l ∨ acc = some x := by
    intro l
    induction l with
    | nil => exact fun acc x h => Or.inr h
    | cons a rest ih =>
      intro acc x h
      rcases ih (bestStep acc a) x h with hmem | hacc
      · exact Or.inl (List.mem_cons_of_mem _ hmem)
      · rcases acc with _ | b
        · have hax : a = x := Option.some_inj.mp hacc
          left
          rw [← hax]
          exact List.mem_cons_self _ _
        · have h2 : (if b.2 < a.2 then some a else some b) = some x := hacc
          by_cases hlt : b.2 < a.2
          · rw [if_pos hlt] at h2
            have hax : a = x := Option.some_inj.mp h2
            left
            rw [← hax]
            exact List.mem_cons_self _ _
          · right
            rw [if_neg hlt] at h2
            exact h2
  rcases haux l none x h with hm | habs
  · exact hm
  · exact Option.noConfusion habs

theorem threshold_pos : (0 : ℚ) < 55 / 100 := by norm_num

/-- C3: a Heading2 paragraph whose nonempty heading has no exact
normalized match and whose every fuzzy score is below 0.55 resolves to
no theme; the walk appends the heading to unmatchedHeadings and leaves
every other state component — in particular the current theme, so that
following content is attributed to the previously current theme or
dropped if none was ever current — unchanged; the step is total, so no
error is raised. -/
theorem unmatched_heading_behavior (themes : List ThemeLookup)
    (rels : List (String × String)) (paragraph : List XmlNode) (st : DocxState)
    (hstyle : paragraphStyle paragraph = some "Heading2")
    (hne : headingTextOf (paragraphTokens rels paragraph) ≠ "")
    (hexact : ∀ u ∈ themes.map normalizeLookup,
      u.normalizedTitle ≠ headingNorm (headingTextOf (paragraphTokens rels paragraph)))
    (hscore : ∀ u ∈ themes.map normalizeLookup,
      scoreNameMatch u.normalizedTitle
        (headingNorm (headingTextOf (paragraphTokens rels paragraph))) < 55 / 100) :
    resolveTheme themes (headingTextOf (paragraphTokens rels paragraph)) = none ∧
    processParagraph themes rels paragraph st =
      { st with unmatchedHeadings :=
          st.unmatchedHeadings ++ [headingTextOf (paragraphTokens rels paragraph)] } := by
  have hres : resolveTheme themes (headingTextOf (paragraphTokens rels paragraph)) = none := by
    unfold resolveTheme
    have hfind : (themes.map normalizeLookup).reverse.find?
        (fun u => u.normalizedTitle ==
          headingNorm (headingTextOf (paragraphTokens rels paragraph))) = none := by
      rw [List.find?_eq_none]
      intro x hx
      simp only [beq_iff_eq]
      exact hexact x (List.mem_reverse.mp hx)
    rw [hfind]
    rcases hbest : bestScored ((themes.map normalizeLookup).map
        (fun t => (t, scoreNameMatch t.normalizedTitle
          (headingNorm (headingTextOf (paragraphTokens rels paragraph)))))) with _ | best
    · rfl
    · rcases List.mem_map.mp (bestScored_mem _ _ hbest) with ⟨u, hu, rfl⟩
      dsimp only
      rw [if_pos (hscore u hu)]
  refine ⟨hres, ?_⟩
  unfold processParagraph
  rw [if_pos ⟨hstyle, hne⟩, hres]

/-- C3 witness: a Heading2 paragraph reading "Mystery Topic" against
the fixture lookups. -/
theorem unmatched_heading_behavior_witness :
    resolveTheme lookupsFix "Mystery Topic" = none ∧
    processParagraph lookupsFix [] unmatchedParaFix initDocxState =
      { initDocxState with unmatchedHeadings := ["Mystery Topic"] } :=
  unmatched_heading_behavior lookupsFix [] unmatchedParaFix initDocxState
    (by decide) (by decide) (by decide)
    (fun u hu => by
      have h0 : scoreNameMatch u.normalizedTitle
          (headingNorm (headingTextOf (paragraphTokens [] unmatchedParaFix))) = 0 := by
        cases hu with
        | head =>
          exact scoreNameMatch_eq_zero_of_disjoint _ _ (by decide) (by decide)
        | tail _ hu2 =>
          cases hu2 with
          | head =>
            exact scoreNameMatch_eq_zero_of_disjoint _ _ (by decide) (by decide)
          | tail _ hu3 => cases hu3
      rw [h0]
      exact threshold_pos)

/-! ### Claim C5: the rich-text merge law -/

theorem cleanLine_of_clean (s : String) (h : CleanL s.data) : cleanLine s = s := by
  show (⟨cleanLineL s.data⟩ : String) = s
  rw [cleanLineL_id s.data h]

theorem cleanL_normalizeInlineText (v : String) : CleanL (normalizeInlineText v).data :=
  (cleanL_and_mem_cleanLineL v.data).1

theorem cleanL_join (t1 t2 : List Char) (h1 : CleanL t1) (hne1 : t1 ≠ [])
    (h2 : CleanL t2) (hne2 : t2 ≠ []) : CleanL (t1 ++ ' ' :: t2) := by
  obtain ⟨hws1, hch1, hhd1, hlast1⟩ := h1
  obtain ⟨hws2, hch2, hhd2, hlast2⟩ := h2
  refine ⟨?_, ?_, ?_, ?_⟩
  · intro c hc hcw
    rcases List.mem_append.mp hc with hm | hm
    · exact hws1 c hm hcw
    · rcases List.mem_cons.mp hm with rfl | hm2
      · rfl
      · exact hws2 c hm2 hcw
  · rw [List.chain'_append]
    refine ⟨hch1, ?_, ?_⟩
    · refine List.chain'_cons'.mpr ⟨?_, hch2⟩
      intro y hy
      intro hand
      rw [hhd2 y hy] at hand
      exact Bool.false_ne_true hand.2
    · intro x hx y hy
      intro hand
      rw [hlast1 x hx] at hand
      exact Bool.false_ne_true hand.1
  · intro c hc
    rw [List.head?_append] at hc
    rcases hhd : t1.head? with _ | d
    · exact absurd hhd (by rcases t1 with _ | ⟨a, r⟩; exact absurd rfl hne1; simp)
    · rw [hhd] at hc
      have : d = c := Option.some_inj.mp hc
      rw [← this]
      exact hhd1 d hhd
  · intro c hc
    rw [List.getLast?_append] at hc
    rcases t2 with _ | ⟨a, r⟩
    · exact absurd rfl hne2
    · have hg : (' ' :: a :: r).getLast? = (a :: r).getLast? := List.getLast?_cons_cons
      rw [hg] at hc
      rcases hl : (a :: r).getLast? with _ | d
      · simp at hl
      · rw [hl] at hc
        have : d = c := Option.some_inj.mp hc
        rw [← this]
        exact hlast2 d hl

theorem string_ne_empty_of_data {s : String} (h : s.data ≠ []) : s ≠ "" := by
  intro hs
  rw [hs] at h
  exact h rfl

theorem data_ne_empty_of_ne {s : String} (h : s ≠ "") : s.data ≠ [] := by
  intro hd
  exact h (by cases s; simp at hd; rw [hd])

theorem pushRichSegment_ne_empty (buf : List RichSegment) (v : String) (b : Bool)
    (h : normalizeInlineText v ≠ "") : pushRichSegment buf v b ≠ [] := by
  unfold pushRichSegment
  rw [if_neg h]
  rcases hg : buf.getLast? with _ | prev
  · simp
  · dsimp only
    by_cases hb : prev.bold = b
    · rw [if_pos hb]
      simp
    · rw [if_neg hb]
      simp

theorem pushRichSegment_goodBuf (b : Bool) (buf : List RichSegment) (v : String)
    (h : goodBuf b buf) : goodBuf b (pushRichSegment buf v b) ∧
      (buf ≠ [] → pushRichSegment buf v b ≠ []) := by
  unfold pushRichSegment
  by_cases hv : normalizeInlineText v = ""
  · rw [if_pos hv]
    exact ⟨h, fun hne => hne⟩
  · rw [if_neg hv]
    rcases h with rfl | ⟨t, rfl, hclean, htne⟩
    · constructor
      · right
        refine ⟨normalizeInlineText v, by rfl, cleanL_normalizeInlineText v, hv⟩
      · intro hne
        exact absurd rfl hne
    · have hg : ([{ text := t, bold := b }] : List RichSegment).getLast? =
          some { text := t, bold := b } := rfl
      rw [hg]
      dsimp only
      rw [if_pos rfl]
      constructor
      · right
        refine ⟨⟨t.data ++ ' ' :: (normalizeInlineText v).data⟩, by rfl, ?_, ?_⟩
        · exact cleanL_join t.data (normalizeInlineText v).data hclean
            (data_ne_empty_of_ne htne) (cleanL_normalizeInlineText v)
            (data_ne_empty_of_ne hv)
        · exact string_ne_empty_of_data (by simp)
      · intro _
        simp
    
theorem textFold_goodBuf (b : Bool) (tokens : List DocxToken)
    (hall : ∀ tok ∈ tokens, ∃ v, tok = DocxToken.text v b) :
    ∀ buf, goodBuf b buf →
      goodBuf b (tokens.foldl textFoldStep buf) ∧
      (buf ≠ [] → tokens.foldl textFoldStep buf ≠ []) := by
  induction tokens with
  | nil => exact fun buf h => ⟨h, fun hne => hne⟩
  | cons tok rest ih =>
    intro buf h
    rcases hall tok (List.mem_cons_self _ _) with ⟨v, rfl⟩
    have hstep := pushRichSegment_goodBuf b buf v h
    have hrest := ih (fun t ht => hall t (List.mem_cons_of_mem _ ht))
      (pushRichSegment buf v b) hstep.1
    exact ⟨hrest.1, fun hne => hrest.2 (hstep.2 hne)⟩

theorem procTok_all_text (tid : String) (lvl : Option Int) (tokens : List DocxToken)
    (b : Bool) (hall : ∀ tok ∈ tokens, ∃ v, tok = DocxToken.text v b) :
    ∀ (buf : List RichSegment) (st : DocxState),
      procTok tid lvl tokens buf st =
        flushTextBuf tid lvl (tokens.foldl textFoldStep buf) st := by
  induction tokens with
  | nil => exact fun buf st => rfl
  | cons tok rest ih =>
    intro buf st
    rcases hall tok (List.mem_cons_self _ _) with ⟨v, rfl⟩
    exact ih (fun t ht => hall t (List.mem_cons_of_mem _ ht)) (pushRichSegment buf v b) st

theorem flushTextBuf_single (tid : String) (lvl : Option Int) (t : String) (b : Bool)
    (st : DocxState) (hclean : CleanL t.data) (hne : t ≠ "") :
    flushTextBuf tid lvl [{ text := t, bold := b }] st =
      pushBlock tid
        { kind := BlockKind.text, text := some t,
          textRole := some (flushRole lvl [{ text := t, bold := b }]),
          listLevel := lvl,
          richTextJson := some [{ text := t, bold := b }] } st := by
  have hv : cleanLine ⟨joinSpaceL (([{ text := t, bold := b }] : List RichSegment).map
      (fun sg => sg.text.data))⟩ = t := cleanLine_of_clean t hclean
  unfold flushTextBuf
  rw [if_neg (by simp : ¬([{ text := t, bold := b }] : List RichSegment) = []), hv,
    if_neg hne]

/-- C5: feeding the note-block assembler a paragraph whose text tokens
all carry the same bold state (at least one of them nonempty after
normalization) emits exactly one block: a text block whose rich-text
payload consists of exactly one segment, regardless of how many tokens
were merged. -/
theorem same_bold_single_segment (tid : String) (lvl : Option Int)
    (tokens : List DocxToken) (b : Bool) (st : DocxState)
    (hall : ∀ tok ∈ tokens, ∃ v, tok = DocxToken.text v b)
    (hsome : ∃ v, DocxToken.text v b ∈ tokens ∧ normalizeInlineText v ≠ "") :
    ∃ seg input, procTok tid lvl tokens [] st = pushBlock tid input st ∧
      input.kind = BlockKind.text ∧ input.richTextJson = some [seg] := by
  rw [procTok_all_text tid lvl tokens b hall [] st]
  have hgood := (textFold_goodBuf b tokens hall [] (Or.inl rfl)).1
  have hne : tokens.foldl textFoldStep [] ≠ [] := by
    obtain ⟨v, hmem, hv⟩ := hsome
    obtain ⟨l1, l2, rfl⟩ := List.append_of_mem hmem
    rw [List.foldl_append]
    have h1 := (textFold_goodBuf b l1
      (fun t ht => hall t (by simp [ht])) [] (Or.inl rfl)).1
    rw [List.foldl_cons]
    have hpush : pushRichSegment (l1.foldl textFoldStep []) v b ≠ [] :=
      pushRichSegment_ne_empty _ v b hv
    exact (textFold_goodBuf b l2 (fun t ht => hall t (by simp [ht]))
      (pushRichSegment (l1.foldl textFoldStep []) v b)
      ((pushRichSegment_goodBuf b _ v h1).1)).2 hpush
  rcases hgood with hempty | ⟨t, heq, hclean, htne⟩
  · exact absurd hempty hne
  · rw [heq]
    exact ⟨{ text := t, bold := b },
      { kind := BlockKind.text, text := some t,
        textRole := some (flushRole lvl [{ text := t, bold := b }]),
        listLevel := lvl, richTextJson := some [{ text := t, bold := b }] },
      flushTextBuf_single tid lvl t b st hclean htne, rfl, rfl⟩

/-- C5 witness: two same-bold tokens merge into a single segment. -/
theorem same_bold_single_segment_witness :
    ∃ seg input,
      procTok "id1" none
        [DocxToken.text "Hello" true, DocxToken.text "World" true] [] initDocxState =
        pushBlock "id1" input initDocxState ∧
      input.kind = BlockKind.text ∧ input.richTextJson = some [seg] :=
  same_bold_single_segment "id1" none
    [DocxToken.text "Hello" true, DocxToken.text "World" true] true initDocxState
    (fun tok ht => by
      cases ht with
      | head => exact ⟨"Hello", rfl⟩
      | tail _ h2 =>
        cases h2 with
        | head => exact ⟨"World", rfl⟩
        | tail _ h3 => cases h3)
    ⟨"Hello", by decide, by decide⟩

/-! ### Claims C1 and C7: decimal key machinery -/

theorem unDigits_natDigitsAux : ∀ (fuel n : Nat), n ≤ fuel →
    unDigits (natDigitsAux fuel n) = n := by
  intro fuel
  induction fuel with
  | zero =>
    intro n hn
    rw [Nat.le_zero.mp hn]
    rfl
  | succ f ih =>
    intro n hn
    rcases n with _ | m
    · rfl
    · show unDigits (((m + 1) % 10) :: natDigitsAux f ((m + 1) / 10)) = m + 1
      show ((m + 1) % 10) + 10 * unDigits (natDigitsAux f ((m + 1) / 10)) = m + 1
      rw [ih ((m + 1) / 10) (by
        have : (m + 1) / 10 < m + 1 := Nat.div_lt_self (Nat.succ_pos m) (by omega)
        omega)]
      exact Nat.mod_add_div (m + 1) 10

theorem natDigitsAux_lt_ten : ∀ (fuel n : Nat), ∀ d ∈ natDigitsAux fuel n, d < 10 := by
  intro fuel
  induction fuel with
  | zero => intro n d hd; cases hd
  | succ f ih =>
    intro n d hd
    rcases n with _ | m
    · cases hd
    · rcases List.mem_cons.mp hd with rfl | hd2
      · exact Nat.mod_lt _ (by omega)
      · exact ih _ d hd2

theorem chToDigit_digitToChar : ∀ d, d < 10 → chToDigit (digitToChar d) = d := by decide

theorem isAsciiDigit_digitToChar (d : Nat) : isAsciiDigit (digitToChar d) = true := by
  rcases Nat.lt_or_ge d 9 with h | h
  · interval_cases d <;> decide
  · obtain ⟨e, rfl⟩ := Nat.exists_eq_add_of_le h
    rw [Nat.add_comm]
    rfl

theorem unDigits_append_zeros (xs : List Nat) (k : Nat) :
    unDigits (xs ++ List.replicate k 0) = unDigits xs := by
  induction xs with
  | nil =>
    show unDigits (List.replicate k 0) = 0
    induction k with
    | zero => rfl
    | succ k2 ih2 =>
      show (0 : Nat) + 10 * unDigits (List.replicate k2 0) = 0
      rw [ih2]
  | cons x rest ih =>
    show x + 10 * unDigits (rest ++ List.replicate k 0) = x + 10 * unDigits rest
    rw [ih]

theorem parse_decimal (n : Nat) :
    unDigits (((decimalDigitsBE n).map chToDigit).reverse) = n := by
  unfold decimalDigitsBE
  by_cases h : n = 0
  · rw [if_pos h, h]
    rfl
  · rw [if_neg h, List.map_map]
    have heq : ∀ d ∈ (natDigits n).reverse, (chToDigit ∘ digitToChar) d = id d := by
      intro d hd
      exact chToDigit_digitToChar d
        (natDigitsAux_lt_ten n n d (List.mem_reverse.mp hd))
    rw [List.map_congr_left heq, List.map_id, List.reverse_reverse]
    exact unDigits_natDigitsAux n n (le_refl n)

theorem isAsciiDigit_mem_decimal (n : Nat) :
    ∀ c ∈ decimalDigitsBE n, isAsciiDigit c = true := by
  intro c hc
  unfold decimalDigitsBE at hc
  by_cases h : n = 0
  · rw [if_pos h] at hc
    rcases List.mem_singleton.mp hc with rfl
    decide
  · rw [if_neg h] at hc
    rcases List.mem_map.mp hc with ⟨d, _, rfl⟩
    exact isAsciiDigit_digitToChar d

theorem parseBE_pad4_decimal (n : Nat) :
    unDigits (((pad4 (decimalDigitsBE n)).map chToDigit).reverse) = n := by
  unfold pad4
  rw [List.map_append, List.map_replicate, List.reverse_append, List.reverse_replicate]
  show unDigits (((decimalDigitsBE n).map chToDigit).reverse ++
    List.replicate (4 - (decimalDigitsBE n).length) (chToDigit '0')) = n
  rw [show chToDigit '0' = 0 from rfl, unDigits_append_zeros]
  exact parse_decimal n

theorem takeWhile_append_all {α : Type} (p : α → Bool) (l1 l2 : List α)
    (h : ∀ c ∈ l1, p c = true) :
    (l1 ++ l2).takeWhile p = l1 ++ l2.takeWhile p := by
  induction l1 with
  | nil => rfl
  | cons a rest ih =>
    show ((a :: rest) ++ l2).takeWhile p = _
    rw [List.cons_append, List.takeWhile_cons, h a (List.mem_cons_self _ _)]
    rw [ih (fun c hc => h c (List.mem_cons_of_mem _ hc))]
    rfl

theorem keyOrderOf_mkExternalKey (o : Nat) (kind : BlockKind) (base : String) :
    keyOrderOf (mkExternalKey o kind base) = o := by
  unfold keyOrderOf mkExternalKey
  have hd : ∀ c ∈ pad4 (decimalDigitsBE o), isAsciiDigit c = true := by
    intro c hc
    rcases List.mem_append.mp hc with hm | hm
    · rcases List.eq_of_mem_replicate hm with rfl
      decide
    · exact isAsciiDigit_mem_decimal o c hm
  rw [show (String.mk (pad4 (decimalDigitsBE o) ++ '-' ::
      ((kindStr kind).data ++ '-' :: (slugify base).data.take 80))).data =
      pad4 (decimalDigitsBE o) ++ '-' ::
      ((kindStr kind).data ++ '-' :: (slugify base).data.take 80) from rfl]
  rw [takeWhile_append_all _ _ _ hd]
  rw [show (('-' :: ((kindStr kind).data ++ '-' :: (slugify base).data.take 80)).takeWhile
      isAsciiDigit) = [] from rfl]
  rw [List.append_nil]
  exact parseBE_pad4_decimal o

theorem alGet_alSet_self {α : Type} (m : List (String × α)) (k : String) (v : α) :
    alGet (alSet m k v) k = some v := by
  induction m with
  | nil => simp [alSet, alGet]
  | cons p rest ih =>
    by_cases hp : p.1 = k
    · show alGet (if p.1 = k then (k, v) :: rest else p :: alSet rest k v) k = some v
      rw [if_pos hp]
      simp [alGet]
    · show alGet (if p.1 = k then (k, v) :: rest else p :: alSet rest k v) k = some v
      rw [if_neg hp]
      show (if p.1 = k then some p.2 else alGet (alSet rest k v) k) = some v
      rw [if_neg hp]
      exact ih

theorem alGet_alSet_ne {α : Type} (m : List (String × α)) (k : String) (v : α)
    (k' : String) (hne : k' ≠ k) : alGet (alSet m k v) k' = alGet m k' := by
  induction m with
  | nil =>
    show (if k = k' then some v else none) = none
    rw [if_neg (Ne.symm hne)]
  | cons p rest ih =>
    by_cases hp : p.1 = k
    · show alGet (if p.1 = k then (k, v) :: rest else p :: alSet rest k v) k' = _
      rw [if_pos hp]
      show (if k = k' then some v else alGet rest k') = _
      rw [if_neg (Ne.symm hne)]
      show alGet rest k' = (if p.1 = k' then some p.2 else alGet rest k')
      rw [if_neg (by rw [hp]; exact Ne.symm hne)]
    · show alGet (if p.1 = k then (k, v) :: rest else p :: alSet rest k v) k' = _
      rw [if_neg hp]
      show (if p.1 = k' then some p.2 else alGet (alSet rest k v) k') = _
      by_cases hq : p.1 = k'
      · rw [if_pos hq]
        show _ = (if p.1 = k' then some p.2 else alGet rest k')
        rw [if_pos hq]
      · rw [if_neg hq]
        show _ = (if p.1 = k' then some p.2 else alGet rest k')
        rw [if_neg hq]
        exact ih

theorem setAdd_mem (l : List String) (x : String) : x ∈ setAdd l x := by
  unfold setAdd
  by_cases h : x ∈ l
  · rw [if_pos h]
    exact h
  · rw [if_neg h]
    simp

theorem setAdd_subset (l : List String) (x : String) : l ⊆ setAdd l x := by
  unfold setAdd
  by_cases h : x ∈ l
  · rw [if_pos h]
    exact fun y hy => hy
  · rw [if_neg h]
    exact fun y hy => List.mem_append_left _ hy

theorem setAdd_nodup (l : List String) (x : String) (h : l.Nodup) :
    (setAdd l x).Nodup := by
  unfold setAdd
  by_cases hx : x ∈ l
  · rw [if_pos hx]
    exact h
  · rw [if_neg hx]
    exact List.Nodup.append h (List.nodup_singleton x) (by simpa using hx)

theorem createBlock_order (input : BlockInput) (n : Nat) :
    (createBlock input n).order = n := rfl

theorem createBlock_keyOrder (input : BlockInput) (n : Nat) :
    keyOrderOf (createBlock input n).externalKey = n :=
  keyOrderOf_mkExternalKey n input.kind _

theorem createBlock_imageTarget (input : BlockInput) (n : Nat) :
    (createBlock input n).imageTarget = input.imageTarget := rfl

theorem ordered_append (l : List ParsedNoteBlock) (blk : ParsedNoteBlock)
    (hl : ∀ i (h : i < l.length), (l.get ⟨i, h⟩).order = i + 1 ∧
      keyOrderOf (l.get ⟨i, h⟩).externalKey = i + 1)
    (hb : blk.order = l.length + 1 ∧ keyOrderOf blk.externalKey = l.length + 1) :
    ∀ i (h : i < (l ++ [blk]).length), ((l ++ [blk]).get ⟨i, h⟩).order = i + 1 ∧
      keyOrderOf ((l ++ [blk]).get ⟨i, h⟩).externalKey = i + 1 := by
  intro i hi
  rcases Nat.lt_or_ge i l.length with h2 | h2
  · rw [List.get_append i h2]
    exact hl i h2
  · have hieq : i = l.length := by
      have hlen : i < l.length + 1 := by simpa using hi
      omega
    subst hieq
    have hget : (l ++ [blk]).get ⟨l.length, hi⟩ = blk := by
      rw [List.get_eq_getElem]
      exact List.getElem_concat_length l blk l.length rfl _
    rw [hget]
    exact hb

theorem orderedKeys_old (st : DocxState) (h : orderedKeys st) (tid : String) :
    ∀ i (hh : i < ((alGet st.blocksByTheme tid).getD []).length),
      ((((alGet st.blocksByTheme tid).getD []).get ⟨i, hh⟩).order = i + 1 ∧
        keyOrderOf ((((alGet st.blocksByTheme tid).getD []).get ⟨i, hh⟩).externalKey) = i + 1) := by
  rcases hx : alGet st.blocksByTheme tid with _ | l
  · intro i hh
    simp at hh
  · intro i hh
    exact h tid l hx i (by simpa using hh)

theorem pushBlock_counterSync (tid : String) (input : BlockInput) (st : DocxState)
    (h : counterSync st) : counterSync (pushBlock tid input st) := by
  intro tid'
  show (alGet (alSet st.orderByTheme tid (((alGet st.orderByTheme tid).getD 0) + 1)) tid').getD 0 =
    ((alGet (alSet st.blocksByTheme tid (((alGet st.blocksByTheme tid).getD []) ++
      [createBlock input (((alGet st.orderByTheme tid).getD 0) + 1)])) tid').getD []).length
  by_cases htid : tid' = tid
  · subst htid
    rw [alGet_alSet_self, alGet_alSet_self]
    simp [h tid']
  · rw [alGet_alSet_ne _ _ _ _ htid, alGet_alSet_ne _ _ _ _ htid]
    exact h tid'

theorem pushBlock_orderedKeys (tid : String) (input : BlockInput) (st : DocxState)
    (hc : counterSync st) (h : orderedKeys st) : orderedKeys (pushBlock tid input st) := by
  intro tid' blocks hget i hi
  have hget' : alGet (alSet st.blocksByTheme tid (((alGet st.blocksByTheme tid).getD []) ++
      [createBlock input (((alGet st.orderByTheme tid).getD 0) + 1)])) tid' =
      some blocks := hget
  by_cases htid : tid' = tid
  · subst htid
    rw [alGet_alSet_self] at hget'
    have hblocks : blocks = ((alGet st.blocksByTheme tid').getD []) ++
        [createBlock input (((alGet st.orderByTheme tid').getD 0) + 1)] :=
      (Option.some_inj.mp hget').symm
    subst hblocks
    refine ordered_append _ _ (orderedKeys_old st h tid') ⟨?_, ?_⟩ i hi
    · rw [createBlock_order, hc tid']
    · rw [createBlock_keyOrder, hc tid']
  · rw [alGet_alSet_ne _ _ _ _ htid] at hget'
    exact h tid' blocks hget' i hi

theorem pushBlock_blocksCovered (tid : String) (input : BlockInput) (st : DocxState)
    (u : List String) (h : blocksCovered st u)
    (hin : ∀ t, input.imageTarget = some t → t ∈ u) :
    blocksCovered (pushBlock tid input st) u := by
  intro tid' blocks hget b hb t ht
  have hget' : alGet (alSet st.blocksByTheme tid (((alGet st.blocksByTheme tid).getD []) ++
      [createBlock input (((alGet st.orderByTheme tid).getD 0) + 1)])) tid' =
      some blocks := hget
  by_cases htid : tid' = tid
  · subst htid
    rw [alGet_alSet_self] at hget'
    have hblocks : blocks = ((alGet st.blocksByTheme tid').getD []) ++
        [createBlock input (((alGet st.orderByTheme tid').getD 0) + 1)] :=
      (Option.some_inj.mp hget').symm
    subst hblocks
    rcases List.mem_append.mp hb with hb1 | hb2
    · rcases hx : alGet st.blocksByTheme tid' with _ | l
      · rw [hx] at hb1
        simp at hb1
      · rw [hx] at hb1
        simp only [Option.getD_some] at hb1
        exact h tid' l hx b hb1 t ht
    · rcases List.mem_singleton.mp hb2 with rfl
      rw [createBlock_imageTarget] at ht
      exact hin t ht
  · rw [alGet_alSet_ne _ _ _ _ htid] at hget'
    exact h tid' blocks hget' b hb t ht

theorem blocksCovered_mono (st : DocxState) (u u' : List String)
    (h : blocksCovered st u) (hsub : u ⊆ u') : blocksCovered st u' :=
  fun tid blocks hget b hb t ht => hsub (h tid blocks hget b hb t ht)

theorem pushBlock_inv_noImage (tid : String) (input : BlockInput) (st : DocxState)
    (hni : input.imageTarget = none) (h : docxInv st) : docxInv (pushBlock tid input st) :=
  ⟨pushBlock_counterSync _ _ _ h.1,
   pushBlock_orderedKeys _ _ _ h.1 h.2.1,
   pushBlock_blocksCovered _ _ _ _ h.2.2.1
     (fun t ht => by rw [hni] at ht; cases ht),
   h.2.2.2⟩

theorem flushTextBuf_inv (tid : String) (lvl : Option Int) (buf : List RichSegment)
    (st : DocxState) (h : docxInv st) : docxInv (flushTextBuf tid lvl buf st) := by
  unfold flushTextBuf
  split
  · exact h
  · split
    · exact h
    · exact pushBlock_inv_noImage _ _ _ rfl h

theorem procTok_inv (tid : String) (lvl : Option Int) :
    ∀ (tokens : List DocxToken) (buf : List RichSegment) (st : DocxState),
      docxInv st → docxInv (procTok tid lvl tokens buf st) := by
  intro tokens
  induction tokens with
  | nil => exact fun buf st h => flushTextBuf_inv _ _ _ _ h
  | cons tok rest ih =>
    intro buf st h
    rcases tok with ⟨v, b⟩ | ⟨name, target⟩
    · exact ih _ _ h
    · refine ih _ _ ?_
      have h1 := flushTextBuf_inv tid lvl buf st h
      refine ⟨?_, ?_, ?_, ?_⟩
      · exact pushBlock_counterSync _ _ _ h1.1
      · exact pushBlock_orderedKeys _ _ _ h1.1 h1.2.1
      · exact pushBlock_blocksCovered tid
          { kind := BlockKind.image, sourceImageName := some name,
            imageTarget := some target } (flushTextBuf tid lvl buf st)
          (setAdd (flushTextBuf tid lvl buf st).usedImageTargets target)
          (blocksCovered_mono _ _ _ h1.2.2.1 (setAdd_subset _ _))
          (fun t ht => by
            rcases Option.some_inj.mp ht with rfl
            exact setAdd_mem _ _)
      · exact setAdd_nodup _ _ h1.2.2.2

theorem processParagraph_inv (themes : List ThemeLookup) (rels : List (String × String))
    (paragraph : List XmlNode) (st : DocxState) (h : docxInv st) :
    docxInv (processParagraph themes rels paragraph st) := by
  unfold processParagraph
  by_cases hc : paragraphStyle paragraph = some "Heading2" ∧
      headingTextOf (paragraphTokens rels paragraph) ≠ ""
  · rw [if_pos hc]
    rcases hres : resolveTheme themes (headingTextOf (paragraphTokens rels paragraph))
      with _ | m
    · exact h
    · exact h
  · rw [if_neg hc]
    rcases hcur : st.currentThemeId with _ | tid
    · exact h
    · show docxInv (if paragraphTokens rels paragraph = [] then st
        else procTok tid (getParagraphListLevel (paragraphProps paragraph))
          (paragraphTokens rels paragraph) [] st)
      by_cases htok : paragraphTokens rels paragraph = []
      · rw [if_pos htok]
        exact h
      · rw [if_neg htok]
        exact procTok_inv _ _ _ _ _ h

theorem processTable_inv (table : List XmlNode) (st : DocxState) (h : docxInv st) :
    docxInv (processTable table st) := by
  unfold processTable
  rcases hcur : st.currentThemeId with _ | tid
  · exact h
  · dsimp only
    split
    · exact h
    · exact pushBlock_inv_noImage _ _ _ rfl h

theorem processBodyNode_inv (themes : List ThemeLookup) (rels : List (String × String))
    (st : DocxState) (node : XmlNode) (h : docxInv st) :
    docxInv (processBodyNode themes rels st node) := by
  rcases node with s | ⟨tag, attrs, cs⟩
  · exact h
  · show docxInv (if tag = "w:p" then processParagraph themes rels cs st
      else if tag = "w:tbl" then processTable cs st else st)
    split
    · exact processParagraph_inv _ _ _ _ h
    · split
      · exact processTable_inv _ _ h
      · exact h

theorem processBody_inv (themes : List ThemeLookup) (rels : List (String × String))
    (body : List XmlNode) :
    ∀ st : DocxState, docxInv st →
      docxInv (body.foldl (processBodyNode themes rels) st) := by
  induction body with
  | nil => exact fun st h => h
  | cons n rest ih =>
    intro st h
    exact ih _ (processBodyNode_inv themes rels st n h)

theorem docxInv_init : docxInv initDocxState :=
  ⟨fun _ => rfl,
   fun _ _ hget => Option.noConfusion hget,
   fun _ _ hget => Option.noConfusion hget,
   List.nodup_nil⟩

theorem used_filter_keys (pkg : List (String × List Nat)) (used : List String) :
    (used.filterMap (fun target =>
      (alGet pkg ("word/" ++ target)).map (fun bytes => (target, bytes)))).map Prod.fst =
    used.filter (fun target => (alGet pkg ("word/" ++ target)).isSome) := by
  induction used with
  | nil => rfl
  | cons x rest ih =>
    rcases hx : alGet pkg ("word/" ++ x) with _ | bytes
    · simp only [List.filterMap_cons, hx, Option.map_none, List.filter_cons,
        Option.isSome_none, Bool.false_eq_true, if_false]
      exact ih
    · simp only [List.filterMap_cons, hx, Option.map_some, List.map_cons,
        List.filter_cons, Option.isSome_some, if_true]
      exact congrArg (List.cons x) ih

/-- **C1**: for every theme key of the `blocksByTheme` map returned by
the DOCX extraction, the Nth block of that theme's list carries
`order = N` (1-based, contiguous, strictly increasing), and the
`externalKey` values within that list are pairwise distinct. -/
theorem blocks_order_and_keys (body : List XmlNode) (rels : List (String × String))
    (themes : List ThemeLookup) (pkg : List (String × List Nat))
    (tid : String) (blocks : List ParsedNoteBlock)
    (hb : alGet (extractNotes body rels themes pkg).blocksByTheme tid = some blocks) :
    (∀ i (h : i < blocks.length), (blocks.get ⟨i, h⟩).order = i + 1) ∧
      blocks.Pairwise (fun a b => a.externalKey ≠ b.externalKey) := by
  have hinv := processBody_inv themes rels body initDocxState docxInv_init
  have hb' : alGet (body.foldl (processBodyNode themes rels) initDocxState).blocksByTheme tid
      = some blocks := hb
  have hok := hinv.2.1 tid blocks hb'
  refine ⟨fun i h => (hok i h).1, ?_⟩
  rw [List.pairwise_iff_get]
  intro i j hij hkey
  have h1 := (hok i.val i.isLt).2
  have h2 := (hok j.val j.isLt).2
  rw [hkey] at h1
  rw [h2] at h1
  have hij' : i.val < j.val := hij
  omega

/-- C1 witness: the walk over `bodyFix` assembles three blocks for
theme `id1`, with orders 1, 2, 3 and pairwise distinct keys. -/
theorem blocks_order_and_keys_witness :
    (∀ i (h : i < blocksFix.length), (blocksFix.get ⟨i, h⟩).order = i + 1) ∧
      blocksFix.Pairwise (fun a b => a.externalKey ≠ b.externalKey) :=
  blocks_order_and_keys bodyFix relsFix lookupsFix pkgFix "id1" blocksFix (by decide)

/-- **C7**: an image target referenced by any emitted block whose bytes
exist in the package yields exactly one entry of `imageBytesByTarget`
keyed by that target path, however many blocks reference it. -/
theorem image_bytes_once (body : List XmlNode) (rels : List (String × String))
    (themes : List ThemeLookup) (pkg : List (String × List Nat))
    (tid : String) (blocks : List ParsedNoteBlock) (b : ParsedNoteBlock) (t : String)
    (hb : alGet (extractNotes body rels themes pkg).blocksByTheme tid = some blocks)
    (hmem : b ∈ blocks) (ht : b.imageTarget = some t)
    (hpkg : (alGet pkg ("word/" ++ t)).isSome = true) :
    ((extractNotes body rels themes pkg).imageBytesByTarget.map Prod.fst).count t = 1 := by
  have hinv := processBody_inv themes rels body initDocxState docxInv_init
  have hb' : alGet (body.foldl (processBodyNode themes rels) initDocxState).blocksByTheme tid
      = some blocks := hb
  have hused : t ∈ (body.foldl (processBodyNode themes rels) initDocxState).usedImageTargets :=
    hinv.2.2.1 tid blocks hb' b hmem t ht
  have hkeys : (extractNotes body rels themes pkg).imageBytesByTarget.map Prod.fst =
      (body.foldl (processBodyNode themes rels) initDocxState).usedImageTargets.filter
        (fun target => (alGet pkg ("word/" ++ target)).isSome) :=
    used_filter_keys pkg _
  rw [hkeys]
  exact List.count_eq_one_of_mem (hinv.2.2.2.filter _)
    (List.mem_filter.mpr ⟨hused, hpkg⟩)

/-- C7 witness: `bodyFix` references `media/image1.png` twice, the
package holds its bytes, and `imageBytesByTarget` keys the target
exactly once. -/
theorem image_bytes_once_witness :
    ((extractNotes bodyFix relsFix lookupsFix pkgFix).imageBytesByTarget.map Prod.fst).count
      "media/image1.png" = 1 :=
  image_bytes_once bodyFix relsFix lookupsFix pkgFix "id1" blocksFix imageBlockFix
    "media/image1.png" (by decide) (by decide) (by decide) (by decide)

end StudyPook
